import Mathlib

/-
Verification development for the AssignmentCheck module composition runtime.

The embedded code comprises the three core components of the repository:
the module registry (src/module-loader.js), the priority-ordered event bus
(EventBusModule) and the reactive keyed state store (StateManagerModule).
JavaScript objects and Maps are modelled as insertion-ordered association
lists, JS Sets as lists used only through membership, and JS values as the
inductive type JVal.  Callbacks and module factories are modelled
symbolically: a callback is a numeric identity and its behaviour is an
environment function passed to the operations; an exception raised by a
callback or factory is an error value of that environment.
-/

/-- A JSON-serialisable JavaScript value.  Numbers are modelled as integers
(no claim involves non-integral numbers). -/
inductive JVal where
  | null
  | bool (b : Bool)
  | num (n : Int)
  | str (s : String)
  | arr (elems : List JVal)
  | obj (fields : List (String × JVal))

/-- Assignment obj[k] = v on an insertion-ordered association list: replace
the first binding of k in place, or append a new binding at the end.  This is
the JS semantics for both plain-object property assignment and Map.set. -/
def setA {β : Type} : List (String × β) → String → β → List (String × β)
  | [], k, v => [(k, v)]
  | (k', v') :: t, k, v => if k' = k then (k, v) :: t else (k', v') :: setA t k v

/-- Map.delete / delete obj[k]: drop the first binding of k. -/
def delA {β : Type} : List (String × β) → String → List (String × β)
  | [], _ => []
  | (k', v') :: t, k => if k' = k then t else (k', v') :: delA t k

namespace ModuleLoader

/-- One registered module.  The factory function is modelled by a numeric
identity `factoryId`; its behaviour is supplied as an environment when a
module is initialised.  `inst` is the memoised instance (null until first
successful initialisation).  Instances are modelled as plain values of a
type parameter; in particular they carry no `init` method of their own. -/
structure ModEntry (α : Type) where
  factoryId : Nat
  deps : List String
  inst : Option α

/-- The state of the module loader: the `modules` container, the write-only
`dependencies` map, and the set of initialised module names. -/
structure Registry (α : Type) where
  modules : List (String × ModEntry α)
  dependencies : List (String × List String)
  initialized : List String

def emptyRegistry (α : Type) : Registry α := ⟨[], [], []⟩

/-- register(name, moduleFactory, deps).  The factory argument is `none`
when the caller passes a non-function value (typeof check fails); `deps` is
`none` when the argument is omitted (JS `deps || []`).  Note the source
overwrites `modules[name]` unconditionally, so re-registration replaces the
stored entry.  The name validity test name.trim() === '' is expressed as
"every character is whitespace", which is the same predicate. -/
def isBlank (s : String) : Bool := s.data.all Char.isWhitespace

def register {α : Type} (reg : Registry α) (name : String) (factory : Option Nat)
    (deps : Option (List String)) : Registry α :=
  if isBlank name then reg
  else
    match factory with
    | none => reg
    | some fid =>
      let ds := deps.getD []
      { reg with
        modules := setA reg.modules name ⟨fid, ds, none⟩,
        dependencies :=
          if ds.length > 0 then setA reg.dependencies name ds else reg.dependencies }

/-- hasModule(name). -/
def hasModule {α : Type} (reg : Registry α) (name : String) : Bool :=
  (List.lookup name reg.modules).isSome

/-- get(name): the memoised instance, or null (with a warning) when the
module is unregistered or not yet initialised. -/
def get {α : Type} (reg : Registry α) (name : String) : Option α :=
  match List.lookup name reg.modules with
  | none => none
  | some e => e.inst

/-- The declared direct dependencies of a module (empty for an unregistered
name). -/
def depsOf {α : Type} (reg : Registry α) (name : String) : List String :=
  match List.lookup name reg.modules with
  | none => []
  | some e => e.deps

/-- A warning logged by resolveDependencies: the circular-dependency warning
or the missing-module warning. -/
inductive RWarn where
  | cycle (name : String)
  | missing (name : String)
deriving DecidableEq

/-- Termination measure for resolveDependencies: the number of distinct
registered module names not yet in the visited set. -/
def unvisited {α : Type} (reg : Registry α) (visited : List String) : Nat :=
  ((reg.modules.map Prod.fst).dedup.filter (fun k => ¬ visited.contains k)).length

theorem contains_eq_mem (l : List String) (a : String) :
    l.contains a = true ↔ a ∈ l := by
  simp [List.contains]

theorem mem_of_lookup_eq_some {β : Type} {l : List (String × β)} {k : String} {v : β}
    (h : List.lookup k l = some v) : (k, v) ∈ l := by
  induction l with
  | nil => simp [List.lookup] at h
  | cons p t ih =>
    obtain ⟨k', v'⟩ := p
    by_cases hk : k = k'
    · subst hk
      simp [List.lookup] at h
      subst h
      exact List.mem_cons_self _ _
    · have hbeq : (k == k') = false := beq_eq_false_iff_ne.mpr hk
      simp [List.lookup, hbeq] at h
      exact List.mem_cons_of_mem _ (ih h)

theorem keys_mem_of_lookup_isSome {β : Type} {l : List (String × β)} {k : String}
    (h : (List.lookup k l).isSome) : k ∈ l.map Prod.fst := by
  rcases Option.isSome_iff_exists.mp h with ⟨v, hv⟩
  exact List.mem_map.mpr ⟨(k, v), mem_of_lookup_eq_some hv, rfl⟩

theorem length_filter_lt_of_mem {l : List String} {v : List String} {name : String}
    (hmem : name ∈ l) (hvis : ¬ (name ∈ v)) :
    (l.filter (fun k => ¬ (name :: v).contains k)).length
      < (l.filter (fun k => ¬ v.contains k)).length := by
  have hsub : List.Sublist (l.filter (fun k => ¬ (name :: v).contains k))
      (l.filter (fun k => ¬ v.contains k)) := by
    refine List.monotone_filter_right _ ?_
    intro x hx
    simp only [contains_eq_mem, List.mem_cons, decide_not, Bool.not_eq_true',
      decide_eq_false_iff_not] at hx ⊢
    intro hcx
    exact hx (Or.inr hcx)
  refine lt_of_le_of_ne hsub.length_le ?_
  intro hlen
  have heq := hsub.eq_of_length hlen
  have hin : name ∈ l.filter (fun k => ¬ v.contains k) := by
    rw [List.mem_filter]
    refine ⟨hmem, ?_⟩
    simp [contains_eq_mem, hvis]
  rw [← heq, List.mem_filter] at hin
  simp [contains_eq_mem] at hin

theorem unvisited_cons_lt {α : Type} (reg : Registry α) (visited : List String)
    (name : String) (hreg : (List.lookup name reg.modules).isSome)
    (hvis : ¬ visited.contains name = true) :
    unvisited reg (name :: visited) < unvisited reg visited := by
  unfold unvisited
  refine length_filter_lt_of_mem ?_ ?_
  · exact List.mem_dedup.mpr (keys_mem_of_lookup_isSome hreg)
  · intro hmem
    exact hvis ((contains_eq_mem _ _).mpr hmem)

theorem unvisited_le_of_subset {α : Type} (reg : Registry α) (v w : List String)
    (h : ∀ x, v.contains x = true → w.contains x = true) :
    unvisited reg w ≤ unvisited reg v := by
  unfold unvisited
  refine List.Sublist.length_le (List.monotone_filter_right _ ?_)
  intro x hx
  simp only [decide_not, Bool.not_eq_true', decide_eq_false_iff_not] at hx ⊢
  intro hc
  exact hx (h x hc)

/-- Union step threading the shared visited set through the dependency loop.
The recursive call always returns a superset of the visited set it was given
(the JS code mutates one shared Set), so this equals the callee's set; the
explicit union makes that monotonicity structural for the termination
measure. -/
def visUnion (newVis oldVis : List String) : List String :=
  newVis ++ oldVis.filter (fun x => ¬ newVis.contains x)

theorem contains_visUnion_of_old {v w : List String} {x : String}
    (h : v.contains x = true) : (visUnion w v).contains x = true := by
  simp only [visUnion, contains_eq_mem, List.mem_append, List.mem_filter,
    decide_not, Bool.not_eq_true', decide_eq_false_iff_not] at h ⊢
  by_cases hw : x ∈ w
  · exact Or.inl hw
  · exact Or.inr ⟨h, hw⟩

theorem unvisited_visUnion_le {α : Type} (reg : Registry α) (w v : List String) :
    unvisited reg (visUnion w v) ≤ unvisited reg v := by
  refine unvisited_le_of_subset reg v _ ?_
  intro x hx
  exact contains_visUnion_of_old hx

mutual

/-- resolveDependencies(name, visited) from src/module-loader.js.  Returns
the resolved dependency list, the visited set after the call (the JS code
shares one mutable Set across the recursion), and the warnings logged. -/
def resolveOne {α : Type} (reg : Registry α) (name : String) (visited : List String) :
    List String × List String × List RWarn :=
  if visited.contains name then ([], visited, [RWarn.cycle name])
  else
    match hm : List.lookup name reg.modules with
    | none => ([], visited, [RWarn.missing name])
    | some e => resolveList reg e.deps (name :: visited) []
termination_by (unvisited reg visited, 0, 0)
decreasing_by
  exact Prod.Lex.left _ _
    (unvisited_cons_lt reg visited name (by rw [hm]; rfl) (by assumption))

/-- The deps.forEach loop of resolveDependencies: `resolved` is the local
accumulator array of the calling frame. -/
def resolveList {α : Type} (reg : Registry α) (deps : List String)
    (visited : List String) (resolved : List String) :
    List String × List String × List RWarn :=
  match deps with
  | [] => (resolved, visited, [])
  | d :: ds =>
    let step :=
      if visited.contains d then (resolved, visited, ([] : List RWarn))
      else
        let q := resolveOne reg d visited
        (resolved ++ q.1, visUnion q.2.1 visited, q.2.2)
    let r2 := if step.1.contains d then step.1 else step.1 ++ [d]
    let rest := resolveList reg ds step.2.1 r2
    (rest.1, rest.2.1, step.2.2 ++ rest.2.2)
termination_by (unvisited reg visited, 1, deps.length)
decreasing_by
  · exact Prod.Lex.right _ (Prod.Lex.left _ _ (by omega))
  · have hle : unvisited reg step.2.1 ≤ unvisited reg visited := by
      simp only [step]
      split
      · exact le_rfl
      · exact unvisited_visUnion_le reg _ visited
    have hlen : ds.length < (d :: ds).length := by
      simp [List.length_cons]
    rcases Nat.lt_or_ge (unvisited reg step.2.1) (unvisited reg visited) with hlt | hge
    · exact Prod.Lex.left _ _ hlt
    · have heq : unvisited reg step.2.1 = unvisited reg visited :=
        Nat.le_antisymm hle hge
      rw [heq]
      exact Prod.Lex.right _ (Prod.Lex.right _ hlen)

end

/-- Entry point resolveDependencies(name): the visited set starts empty. -/
def resolveDependencies {α : Type} (reg : Registry α) (name : String) :
    List String × List String × List RWarn :=
  resolveOne reg name []

/-- One entry of the initialisation trace: the module name whose factory was
invoked, the factory identity, and whether the factory produced a truthy
instance. -/
abbrev ITraceEntry : Type := String × Nat × Bool

mutual

/-- The depInstances array of initModule: the current memoised instance of
each dependency, or null when the dependency is unregistered or has no
instance. -/
def depInstsOf {α : Type} (reg : Registry α) (deps : List String) : List (Option α) :=
  deps.map (fun d =>
    match List.lookup d reg.modules with
    | some de => de.inst
    | none => none)

/-- initModule(name) from src/module-loader.js, with explicit call-stack
fuel: the JS recursion has no cycle protection, so on a dependency cycle it
overflows the call stack; fuel exhaustion models that exception, which
propagates out of initModule because the dependency loop is outside the try
block.  After a truthy instance is memoised and the name marked
initialised, the source calls instance.init() when the instance has such a
method, still inside the try block: ienv v is that call's outcome for
instance v (true when v has no init method or it returns normally, false
when it throws, in which case the catch returns false with the mutations
kept).  Returns the updated registry (mutations survive the exception), the
trace of factory invocations, and the outcome: error for a stack overflow,
otherwise ok with initModule's boolean result. -/
def initModule {α : Type} (env : Nat → List (Option α) → Option α) (ienv : α → Bool) :
    Nat → Registry α → String → Registry α × List ITraceEntry × Except Unit Bool
  | 0, reg, _ => (reg, [], Except.error ())
  | fuel + 1, reg, name =>
    if reg.initialized.contains name then (reg, [], Except.ok true)
    else
      match List.lookup name reg.modules with
      | none => (reg, [], Except.ok false)
      | some e =>
        let r1 := initList env ienv fuel reg e.deps
        match r1.2.2 with
        | Except.error _ => (r1.1, r1.2.1, Except.error ())
        | Except.ok _ =>
          match env e.factoryId (depInstsOf r1.1 e.deps) with
          | some v =>
            ({ r1.1 with
                modules := setA r1.1.modules name ⟨e.factoryId, e.deps, some v⟩,
                initialized := name :: r1.1.initialized },
              r1.2.1 ++ [(name, e.factoryId, true)], Except.ok (ienv v))
          | none => (r1.1, r1.2.1 ++ [(name, e.factoryId, false)], Except.ok false)
termination_by fuel => (fuel, 0, 0)
decreasing_by
  exact Prod.Lex.left _ _ (by omega)

/-- The deps.forEach loop of initModule: each dependency is initialised in
order; a failed dependency is only logged, but a thrown exception (stack
overflow) escapes the loop. -/
def initList {α : Type} (env : Nat → List (Option α) → Option α) (ienv : α → Bool) :
    Nat → Registry α → List String → Registry α × List ITraceEntry × Except Unit Unit
  | _, reg, [] => (reg, [], Except.ok ())
  | fuel, reg, d :: ds =>
    let r1 := initModule env ienv fuel reg d
    match r1.2.2 with
    | Except.error _ => (r1.1, r1.2.1, Except.error ())
    | Except.ok _ =>
      let r2 := initList env ienv fuel r1.1 ds
      (r2.1, r1.2.1 ++ r2.2.1, r2.2.2)
termination_by fuel reg deps => (fuel, 1, deps.length)
decreasing_by
  · exact Prod.Lex.right _ (Prod.Lex.left _ _ (by omega))
  · exact Prod.Lex.right _ (Prod.Lex.right _ (by simp [List.length_cons]))

end

end ModuleLoader

namespace EventBus

/-- One subscription entry: the generated string id, the callback (modelled
by its numeric identity) and the integer priority. -/
structure Listener where
  id : String
  cbId : Nat
  priority : Int
deriving DecidableEq

/-- The bus state: the standing-listener map, the once-listener map and the
shared id counter. -/
structure Bus where
  listeners : List (String × List Listener)
  onceListeners : List (String × List Listener)
  counter : Nat
deriving DecidableEq

def emptyBus : Bus := ⟨[], [], 0⟩

/-- The comparator (a, b) => b.priority - a.priority: a stable sort into
descending priority order. -/
def descPriority (a b : Listener) : Bool := decide (b.priority ≤ a.priority)

/-- on(event, callback, priority).  A non-function callback (modelled as
`none`) is rejected with a null return and no state change. -/
def on' (bus : Bus) (event : String) (callback : Option Nat) (priority : Int) :
    Option String × Bus :=
  match callback with
  | none => (none, bus)
  | some cb =>
    let n := bus.counter + 1
    let id := "listener_" ++ Nat.repr n
    let cur := (List.lookup event bus.listeners).getD []
    let sorted := (cur ++ [(⟨id, cb, priority⟩ : Listener)]).mergeSort descPriority
    (some id, { bus with counter := n, listeners := setA bus.listeners event sorted })

/-- once(event, callback, priority). -/
def once (bus : Bus) (event : String) (callback : Option Nat) (priority : Int) :
    Option String × Bus :=
  match callback with
  | none => (none, bus)
  | some cb =>
    let n := bus.counter + 1
    let id := "once_" ++ Nat.repr n
    let cur := (List.lookup event bus.onceListeners).getD []
    let sorted := (cur ++ [(⟨id, cb, priority⟩ : Listener)]).mergeSort descPriority
    (some id, { bus with counter := n, onceListeners := setA bus.onceListeners event sorted })

/-- The callbackOrId argument of off: undefined, a listener-id string, or a
function reference. -/
inductive OffArg where
  | undef
  | byId (s : String)
  | byCb (c : Nat)
deriving DecidableEq

/-- listener.id === callbackOrId || listener.callback === callbackOrId
(a string never equals a function under ===). -/
def offMatch : OffArg → Listener → Bool
  | OffArg.byId s, l => l.id == s
  | OffArg.byCb c, l => l.cbId == c
  | OffArg.undef, _ => false

/-- off(event, callbackOrId).  With an undefined second argument it clears
the event (or, for a falsy event such as the empty string, the whole bus)
and returns undefined (`none`); otherwise it removes every match in both
lists of the event, deletes emptied map entries, and returns whether
anything was removed. -/
def off (bus : Bus) (event : String) (arg : OffArg) : Bus × Option Bool :=
  match arg with
  | OffArg.undef =>
    if event ≠ "" then
      ({ bus with listeners := delA bus.listeners event,
                  onceListeners := delA bus.onceListeners event }, none)
    else
      ({ bus with listeners := [], onceListeners := [] }, none)
  | a =>
    let evL := (List.lookup event bus.listeners).getD []
    let onceL := (List.lookup event bus.onceListeners).getD []
    let evL' := evL.filter (fun l => ¬ offMatch a l)
    let onceL' := onceL.filter (fun l => ¬ offMatch a l)
    let removed := evL.any (offMatch a) || onceL.any (offMatch a)
    ({ bus with
        listeners :=
          if evL'.length = 0 then delA bus.listeners event
          else setA bus.listeners event evL',
        onceListeners :=
          if onceL'.length = 0 then delA bus.onceListeners event
          else setA bus.onceListeners event onceL' },
      some removed)

/-- The merged dispatch array built at the start of emit: standing listeners
for the event, once listeners for the event, standing wildcard listeners and
once wildcard listeners, each tagged with (isOnce, isWildcard). -/
def snapshot (bus : Bus) (event : String) : List (Listener × Bool × Bool) :=
  let evL := (List.lookup event bus.listeners).getD []
  let onceL := (List.lookup event bus.onceListeners).getD []
  let wL := (List.lookup "*" bus.listeners).getD []
  let wOnce := (List.lookup "*" bus.onceListeners).getD []
  evL.map (fun l => (l, false, false)) ++ onceL.map (fun l => (l, true, false))
    ++ wL.map (fun l => (l, false, true)) ++ wOnce.map (fun l => (l, true, true))

/-- The dispatch loop of emit over an already-reversed snapshot.  Each
callback is invoked through the environment; an exception (error result) is
caught and logged, and delivery continues.  A once listener is removed from
the live bus immediately after its invocation.  Returns the collected return
values, the final bus, and the trace of invoked callback identities in
invocation order. -/
def emitLoop (env : Nat → List JVal → Except Unit JVal) (event : String) (data : JVal) :
    List (Listener × Bool × Bool) → Bus → List JVal × Bus × List Nat
  | [], bus => ([], bus, [])
  | (l, isOnce, isWild) :: rest, bus =>
    let res := env l.cbId (if isWild then [JVal.str event, data] else [data])
    let bus1 := if isOnce then (off bus event (OffArg.byId l.id)).1 else bus
    let r := emitLoop env event data rest bus1
    ((match res with
      | Except.ok v => v :: r.1
      | Except.error _ => r.1), r.2.1, l.cbId :: r.2.2)

/-- emit(event, data): snapshot the four listener groups, then iterate the
merged array from its last element to its first. -/
def emit (env : Nat → List JVal → Except Unit JVal) (bus : Bus) (event : String)
    (data : JVal) : List JVal × Bus × List Nat :=
  emitLoop env event data (snapshot bus event).reverse bus

/-- hasListeners(event). -/
def hasListeners (bus : Bus) (event : String) : Bool :=
  decide (0 < ((List.lookup event bus.listeners).getD []).length)
    || decide (0 < ((List.lookup event bus.onceListeners).getD []).length)

/-- getListenerCount(event). -/
def getListenerCount (bus : Bus) (event : String) : Nat :=
  ((List.lookup event bus.listeners).getD []).length
    + ((List.lookup event bus.onceListeners).getD []).length

/-- The total number of listener entries held anywhere in the bus. -/
def busSize (bus : Bus) : Nat :=
  (bus.listeners.map (fun p => p.2.length)).sum
    + (bus.onceListeners.map (fun p => p.2.length)).sum

/-- The ids of one listener group. -/
def groupIds (g : List Listener) : List String := g.map Listener.id

/-- The ids of every group of one listener map, in map order. -/
def flatIds (l : List (String × List Listener)) : List String :=
  (l.map (fun p => groupIds p.2)).flatten

/-- Every listener id present anywhere in the bus. -/
def allIds (bus : Bus) : List String :=
  flatIds bus.listeners ++ flatIds bus.onceListeners

/-- An externally observable bus operation, for stating history-level
invariants. -/
inductive BusOp where
  | on' (event : String) (cb : Option Nat) (priority : Int)
  | once (event : String) (cb : Option Nat) (priority : Int)
  | off (event : String) (arg : OffArg)
  | emit (event : String) (data : JVal)

/-- Run a sequence of bus operations, collecting every listener id returned
by on and once. -/
def runOps (env : Nat → List JVal → Except Unit JVal) :
    List BusOp → Bus → Bus × List String
  | [], bus => (bus, [])
  | op :: rest, bus =>
    let step : Bus × List String :=
      match op with
      | BusOp.on' ev cb p =>
        let r := on' bus ev cb p
        (r.2, r.1.toList)
      | BusOp.once ev cb p =>
        let r := once bus ev cb p
        (r.2, r.1.toList)
      | BusOp.off ev a => ((off bus ev a).1, [])
      | BusOp.emit ev d => ((emit env bus ev d).2.1, [])
    let r := runOps env rest step.1
    (r.1, step.2 ++ r.2)

/-- Decimal digits of a natural number, least significant first; used to
reason about the injectivity of the id counter embedding. -/
def digitsLE (n : Nat) : List Nat :=
  if n < 10 then [n] else (n % 10) :: digitsLE (n / 10)
termination_by n
decreasing_by
  exact Nat.div_lt_self (by omega) (by omega)

/-- Value of a least-significant-first digit list. -/
def digitsVal : List Nat → Nat
  | [] => 0
  | d :: ds => d + 10 * digitsVal ds

end EventBus

namespace StateManager

/-- The compiled-in default state of StateManagerModule. -/
def DEFAULT_STATE : List (String × JVal) :=
  [("nameVisibility", JVal.bool false),
   ("immersiveMode", JVal.bool false),
   ("gradingMode", JVal.bool false),
   ("footerHidden", JVal.bool false),
   ("statsImmersive", JVal.bool false),
   ("statsSelectedTasks", JVal.arr []),
   ("modalStack", JVal.arr [])]

/-- The JS object spread { ...a, ...b }: the keys of a in order, each bound
to b's value when b also has the key, followed by the keys of b that are not
in a, in b's order.  (Callers always pass key-deduplicated objects.) -/
def mergeObj (a b : List (String × JVal)) : List (String × JVal) :=
  a.map (fun p => (p.1, (List.lookup p.1 b).getD p.2))
    ++ b.filter (fun p => (List.lookup p.1 a).isNone)

/-- The check `x && typeof x === 'object'` together with the fields the
spread operator would enumerate: an object contributes its fields, an array
contributes index-keyed entries, everything else (including null, which is
falsy) fails the check. -/
def objFieldsOf : JVal → Option (List (String × JVal))
  | JVal.obj fields => some fields
  | JVal.arr elems => some (elems.enum.map (fun p => (Nat.repr p.1, p.2)))
  | _ => none

/-- The state store: the in-memory state (null before the first load), the
listener map (key → insertion-ordered id-to-callback map), and the content
the persistence port holds under the store's STATE_KEY.  Callbacks are
modelled by numeric identities; the ids generated from Date.now and
Math.random are modelled as caller-supplied strings. -/
structure Store where
  jstate : Option (List (String × JVal))
  listeners : List (String × List (String × Nat))
  stored : Option JVal

/-- _loadFromStorage: read the persisted state and merge it over the
defaults; any failure or non-object payload falls back to the defaults. -/
def loadFromStorage (s : Store) : Store :=
  { s with jstate := some (match s.stored with
      | some v =>
        match objFieldsOf v with
        | some fields => mergeObj DEFAULT_STATE fields
        | none => DEFAULT_STATE
      | none => DEFAULT_STATE) }

/-- The lazy load performed by getState/get/setState when _state is null. -/
def ensureLoaded (s : Store) : Store :=
  match s.jstate with
  | some _ => s
  | none => loadFromStorage s

/-- init(): always loads from storage and returns true. -/
def initStore (s : Store) : Store × Bool :=
  (loadFromStorage s, true)

/-- getState(): a shallow copy of the full mapping (pure in this model). -/
def getState (s : Store) : List (String × JVal) × Store :=
  let s' := ensureLoaded s
  (s'.jstate.getD [], s')

/-- One recorded listener invocation of _notifyListeners: the key group the
listener was registered under, the listener id, the callback identity, and
the two argument values passed (none models the JS undefined). -/
structure NEntry where
  key : String
  lid : String
  cbId : Nat
  newVal : Option JVal
  oldVal : Option JVal

/-- _notifyListeners(updates, oldState): for each key of updates, invoke the
listeners registered for that key with (newValue, oldValue); then invoke the
wildcard listeners with the full new and old states. -/
def notifyTrace (updates newSt oldSt : List (String × JVal))
    (ls : List (String × List (String × Nat))) : List NEntry :=
  (updates.map (fun p =>
    match List.lookup p.1 ls with
    | none => ([] : List NEntry)
    | some group => group.map (fun q =>
        ⟨p.1, q.1, q.2, List.lookup p.1 newSt, List.lookup p.1 oldSt⟩))).flatten
  ++ (match List.lookup "*" ls with
    | none => ([] : List NEntry)
    | some group => group.map (fun q =>
        ⟨"*", q.1, q.2, some (JVal.obj newSt), some (JVal.obj oldSt)⟩))

/-- setState(updates): lazy load, shallow merge, persist the merged state,
then notify.  Returns the new store, the listener-invocation trace, and the
boolean result. -/
def setState (s : Store) (updates : List (String × JVal)) :
    Store × List NEntry × Bool :=
  let s' := ensureLoaded s
  let old := s'.jstate.getD []
  let newSt := mergeObj old updates
  ({ s' with jstate := some newSt, stored := some (JVal.obj newSt) },
    notifyTrace updates newSt old s'.listeners, true)

/-- addListener(key, callback): rejects a non-function callback with null;
the generated id (Date.now and Math.random in the source) is modelled as the
caller-supplied `newId`. -/
def addListener (s : Store) (key : String) (cb : Option Nat) (newId : String) :
    Option String × Store :=
  match cb with
  | none => (none, s)
  | some c =>
    let group := (List.lookup key s.listeners).getD []
    (some newId, { s with listeners := setA s.listeners key (setA group newId c) })

/-- The scan of removeListener over the key groups in insertion order. -/
def removeListenerAux :
    List (String × List (String × Nat)) → String →
      List (String × List (String × Nat)) × Bool
  | [], _ => ([], false)
  | (k, group) :: t, id =>
    if (List.lookup id group).isSome then
      let g' := delA group id
      (if g'.length = 0 then t else (k, g') :: t, true)
    else
      let r := removeListenerAux t id
      ((k, group) :: r.1, r.2)

/-- removeListener(id): scan all key groups, delete the first binding of the
id, drop the group if it became empty, and report whether anything was
removed. -/
def removeListener (s : Store) (id : String) : Store × Bool :=
  let r := removeListenerAux s.listeners id
  ({ s with listeners := r.1 }, r.2)

/-- reset(): restore the defaults, persist them, and notify with the full
default state as updates and an empty old state. -/
def reset (s : Store) : Store × List NEntry × Bool :=
  ({ s with jstate := some DEFAULT_STATE, stored := some (JVal.obj DEFAULT_STATE) },
    notifyTrace DEFAULT_STATE DEFAULT_STATE [] s.listeners, true)

/-- export(): JSON.stringify of the state.  The textual JSON round trip is
modelled as the identity on JVal values (JSON.parse of JSON.stringify is the
identity on JSON-safe data), so export yields the state as a value. -/
def exportData (s : Store) : JVal :=
  match s.jstate with
  | some st => JVal.obj st
  | none => JVal.null

/-- import(jsonStr), applied to the already-parsed value (see exportData on
the round-trip model; an unparseable string takes the same failure path as a
non-object value).  On a non-null object: merge over defaults, persist,
notify with the full new state and an empty old state, return true; on
anything else: state untouched, return false. -/
def importData (s : Store) (parsed : JVal) : Store × List NEntry × Bool :=
  match objFieldsOf parsed with
  | some fields =>
    let newSt := mergeObj DEFAULT_STATE fields
    ({ s with jstate := some newSt, stored := some (JVal.obj newSt) },
      notifyTrace newSt newSt [] s.listeners, true)
  | none => (s, [], false)

/-- The store states reachable through the public interface after the state
has been materialised (by init or by the lazy load of the first state
access).  Key-disjointness hypotheses record that JS object literals and
JSON.parse results carry unique keys. -/
inductive Reachable : Store → Prop where
  | loaded (stored : Option JVal) (ls : List (String × List (String × Nat)))
      (h : ∀ v f, stored = some v → objFieldsOf v = some f → (f.map Prod.fst).Nodup) :
      Reachable (loadFromStorage ⟨none, ls, stored⟩)
  | setSt (s : Store) (updates : List (String × JVal)) (h : Reachable s)
      (hnd : (updates.map Prod.fst).Nodup) : Reachable (setState s updates).1
  | resetSt (s : Store) (h : Reachable s) : Reachable (reset s).1
  | importOk (s : Store) (v : JVal) (h : Reachable s)
      (hnd : ∀ f, objFieldsOf v = some f → (f.map Prod.fst).Nodup) :
      Reachable (importData s v).1
  | addL (s : Store) (key : String) (cb : Option Nat) (newId : String)
      (h : Reachable s) : Reachable (addListener s key cb newId).2
  | removeL (s : Store) (id : String) (h : Reachable s) :
      Reachable (removeListener s id).1
  | getSt (s : Store) (h : Reachable s) : Reachable (getState s).2

end StateManager

namespace ModuleLoader

/-- Spec-side notion: module a directly depends on module b. -/
def DepEdge {α : Type} (reg : Registry α) (a b : String) : Prop :=
  b ∈ depsOf reg a

/-- Spec-side notion: b is a transitive dependency of a (closure of the
direct-dependency edges under composition, paths of length at least one). -/
def ReachTG {α : Type} (reg : Registry α) (a b : String) : Prop :=
  Relation.TransGen (DepEdge reg) a b

/-- The factory identity and dependency list stored for a module name;
initialisation never changes this part of an entry. -/
def entrySig {α : Type} (reg : Registry α) (m : String) : Option (Nat × List String) :=
  (List.lookup m reg.modules).map (fun e => (e.factoryId, e.deps))

/-- Cyclic two-module registry: A depends on B and B depends on A (the
scenario of the cycle claims). -/
def regAB : Registry Nat :=
  register (register (emptyRegistry Nat) "A" (some 0) (some ["B"]))
    "B" (some 1) (some ["A"])

/-- Diamond registry: A depends on B and C, which both depend on D. -/
def regDiamond : Registry Nat :=
  register (register (register (register (emptyRegistry Nat)
    "D" (some 3) none)
    "B" (some 1) (some ["D"]))
    "C" (some 2) (some ["D"]))
    "A" (some 0) (some ["B", "C"])

/-- Registry with the name m registered twice, first with factory 1 and then
with factory 2. -/
def regTwice : Registry Nat :=
  register (register (emptyRegistry Nat) "m" (some 1) none) "m" (some 2) none

/-- Factory environment over Nat instances: every factory returns its own
identity as the (truthy) instance. -/
def envId : Nat → List (Option Nat) → Option Nat := fun f _ => some f

/-- An instance-init environment in which no created instance has a
throwing init method. -/
def ienvOk : Nat → Bool := fun _ => true

end ModuleLoader

namespace ModuleLoader

/-- An acyclicity certificate for a registry: a rank function under which
every stored dependency edge strictly descends. -/
def RankOk {α : Type} (reg : Registry α) (rank : String → Nat) : Prop :=
  ∀ p ∈ reg.modules, ∀ d ∈ p.2.deps, rank d < rank p.1

/-- A pushed-entry list is dependency-ordered: for every occurrence of an
entry, every direct dependency of that entry occurs strictly earlier. -/
def OrdAll {α : Type} (reg : Registry α) (L : List String) : Prop :=
  ∀ l1 b l2, L = l1 ++ b :: l2 → ∀ x, DepEdge reg b x → x ∈ l1

/-- Preconditions on a recursive resolveDependencies(name, visited) call.
S is the ghost stack of names whose frames are currently active (the
ancestors of this call), G the ghost list of every entry pushed globally
before this call started, in push order. -/
structure OneIn {α : Type} (reg : Registry α) (S V G : List String)
    (name : String) : Prop where
  notVis : name ∉ V
  stackSub : ∀ s ∈ S, s ∈ V
  stackReach : ∀ s ∈ S, ReachTG reg s name
  finPush : ∀ v ∈ V, v ∉ S → v ∈ G
  finDeps : ∀ v ∈ V, v ∉ S → ∀ x, DepEdge reg v x → x ∈ G ∧ x ∉ S
  visClosed : ∀ v ∈ V, v ∉ S → ∀ x, DepEdge reg v x →
      (List.lookup x reg.modules).isSome → x ∈ V
  ordG : OrdAll reg G

/-- Postconditions of a resolveDependencies(name, visited) call with result
out = (resolved, visitedAfter, warnings). -/
structure OneOut {α : Type} (reg : Registry α) (S V G : List String)
    (name : String) (out : List String × List String × List RWarn) : Prop where
  mono : ∀ v ∈ V, v ∈ out.2.1
  self : (List.lookup name reg.modules = none ∧ out.2.1 = V ∧ out.1 = [])
      ∨ name ∈ out.2.1
  newSound : ∀ v ∈ out.2.1, v ∉ V → v = name ∨ ReachTG reg name v
  finPush : ∀ v ∈ out.2.1, v ∉ S → v ≠ name → v ∈ G ++ out.1
  finDeps : ∀ v ∈ out.2.1, v ∉ S → ∀ x, DepEdge reg v x → x ∈ G ++ out.1 ∧ x ∉ S
  visClosed : ∀ v ∈ out.2.1, v ∉ S → ∀ x, DepEdge reg v x →
      (List.lookup x reg.modules).isSome → x ∈ out.2.1
  memSound : ∀ x ∈ out.1, ∃ b, b ∈ out.2.1 ∧ b ∉ V ∧ DepEdge reg b x
  memComplete : ∀ b ∈ out.2.1, b ∉ V → ∀ x, DepEdge reg b x → x ∈ out.1
  ordG : OrdAll reg (G ++ out.1)

/-- Preconditions on one run of the deps.forEach loop frame: R is the local
resolved accumulator, deps the remaining dependency names.  Here S includes
the name whose frame this loop belongs to. -/
structure LoopIn {α : Type} (reg : Registry α) (S V G R : List String)
    (deps : List String) : Prop where
  stackSub : ∀ s ∈ S, s ∈ V
  depsReach : ∀ d ∈ deps, ∀ s ∈ S, ReachTG reg s d
  finPush : ∀ v ∈ V, v ∉ S → v ∈ G ++ R
  finDeps : ∀ v ∈ V, v ∉ S → ∀ x, DepEdge reg v x → x ∈ G ++ R ∧ x ∉ S
  visClosed : ∀ v ∈ V, v ∉ S → ∀ x, DepEdge reg v x →
      (List.lookup x reg.modules).isSome → x ∈ V
  ordG : OrdAll reg (G ++ R)

/-- Postconditions of one run of the deps.forEach loop frame. -/
structure LoopOut {α : Type} (reg : Registry α) (S V G R : List String)
    (deps : List String) (out : List String × List String × List RWarn) : Prop where
  mono : ∀ v ∈ V, v ∈ out.2.1
  ext : ∃ t, out.1 = R ++ t
  depsIn : ∀ d ∈ deps, d ∈ out.1
  depsVis : ∀ d ∈ deps, (List.lookup d reg.modules).isSome → d ∈ out.2.1
  newSound : ∀ v ∈ out.2.1, v ∉ V → ∃ d ∈ deps, v = d ∨ ReachTG reg d v
  finPush : ∀ v ∈ out.2.1, v ∉ S → v ∈ G ++ out.1
  finDeps : ∀ v ∈ out.2.1, v ∉ S → ∀ x, DepEdge reg v x → x ∈ G ++ out.1 ∧ x ∉ S
  visClosed : ∀ v ∈ out.2.1, v ∉ S → ∀ x, DepEdge reg v x →
      (List.lookup x reg.modules).isSome → x ∈ out.2.1
  memSound : ∀ x ∈ out.1, x ∈ R ∨ x ∈ deps ∨ ∃ b, b ∈ out.2.1 ∧ b ∉ V ∧ DepEdge reg b x
  memComplete : ∀ b ∈ out.2.1, b ∉ V → ∀ x, DepEdge reg b x → x ∈ out.1
  ordG : OrdAll reg (G ++ out.1)

def rankDiamond : String → Nat :=
  fun s => if s = "A" then 3 else if s = "B" then 2 else if s = "C" then 1 else 0

end ModuleLoader

namespace EventBus

/-- The bus of the C1 scenario: two standing listeners on event 'x', L2 with
priority 10 (callback identity 2) and L1 with priority 5 (callback
identity 1). -/
def busC1 : Bus := (on' (on' emptyBus "x" (some 2) 10).2 "x" (some 1) 5).2

/-- A callback environment where every callback returns its own identity. -/
def envC1 : Nat → List JVal → Except Unit JVal :=
  fun c _ => Except.ok (JVal.num c)

/-- The two id shapes the bus ever returns. -/
def IsBusId (c : Nat) (id : String) : Prop :=
  ∃ n, c < n ∧ (id = "listener_" ++ Nat.repr n ∨ id = "once_" ++ Nat.repr n)

/-- The ids held by the bus are pairwise distinct (stated through counts)
and each embeds a counter value not exceeding the bus's id counter. -/
def BusIdsOk (bus : Bus) : Prop :=
  (∀ x, (allIds bus).count x ≤ 1)
  ∧ (∀ id ∈ allIds bus, ∃ n, n ≤ bus.counter
      ∧ (id = "listener_" ++ Nat.repr n ∨ id = "once_" ++ Nat.repr n))

end EventBus

namespace StateManager

/-- The invariant every materialised state of the store satisfies: its key
sequence starts with the default-state keys in order, and has no duplicate
keys. -/
def StateKeysOk (st : List (String × JVal)) : Prop :=
  (∃ tail, st.map Prod.fst = DEFAULT_STATE.map Prod.fst ++ tail)
  ∧ (st.map Prod.fst).Nodup

end StateManager


/-! Theorems.  Shared helper lemmas come first, then one theorem (with its
witness or counterexample where required) per claim. -/

theorem lookup_setA_self {β : Type} (l : List (String × β)) (k : String) (v : β) :
    List.lookup k (setA l k v) = some v := by
  induction l with
  | nil => simp [setA, List.lookup]
  | cons p t ih =>
    obtain ⟨k', v'⟩ := p
    by_cases hk : k' = k
    · subst hk
      simp [setA, List.lookup]
    · have hbeq : (k == k') = false := beq_eq_false_iff_ne.mpr (fun h => hk h.symm)
      simp [setA, hk, List.lookup, hbeq, ih]

theorem lookup_setA_ne {β : Type} (l : List (String × β)) (k k' : String) (v : β)
    (h : k' ≠ k) : List.lookup k' (setA l k v) = List.lookup k' l := by
  induction l with
  | nil =>
    have hbeq : (k' == k) = false := beq_eq_false_iff_ne.mpr h
    simp [setA, List.lookup, hbeq]
  | cons p t ih =>
    obtain ⟨k0, v0⟩ := p
    by_cases hk : k0 = k
    · subst hk
      have hbeq : (k' == k0) = false := beq_eq_false_iff_ne.mpr h
      simp [setA, List.lookup, hbeq]
    · by_cases hk' : k' = k0
      · subst hk'
        simp [setA, hk, List.lookup]
      · have hbeq : (k' == k0) = false := beq_eq_false_iff_ne.mpr hk'
        simp [setA, hk, List.lookup, hbeq, ih]

namespace ModuleLoader

/-- Claim C5, counterexample part: with A and B registered as mutual
dependencies, resolveDependencies('A') logs no warning at all — in
particular no cycle warning, contrary to the claim. -/
theorem C5_counterexample : (resolveDependencies regAB "A").2.2 = [] := by
  simp [resolveDependencies, resolveOne, resolveList, regAB, register, emptyRegistry,
    setA, visUnion, List.lookup, isBlank]

/-- Claim C5 (amended): on the cyclic registry, resolveDependencies('A')
terminates, returning the list [A, B] (the module itself is reported among
its own dependencies), with the updated visited set and no warning: the
visited-set guard in the dependency loop skips the re-entrant call that
would have logged the circular-dependency warning. -/
theorem C5_resolve_cycle_terminates :
    resolveDependencies regAB "A" = (["A", "B"], ["B", "A"], []) := by
  simp [resolveDependencies, resolveOne, resolveList, regAB, register, emptyRegistry,
    setA, visUnion, List.lookup, isBlank]

end ModuleLoader


namespace ModuleLoader

theorem not_mem_of_contains_false {l : List String} {a : String}
    (h : l.contains a = false) : a ∉ l := by
  intro hm
  rw [(contains_eq_mem l a).mpr hm] at h
  cases h

theorem initModule_zero {α : Type} (env : Nat → List (Option α) → Option α) (ienv : α → Bool)
    (reg : Registry α) (name : String) :
    initModule env ienv 0 reg name = (reg, [], Except.error ()) := by
  simp [initModule]

theorem initModule_succ_initialized {α : Type} (env : Nat → List (Option α) → Option α) (ienv : α → Bool)
    (fuel : Nat) (reg : Registry α) (name : String)
    (h : reg.initialized.contains name = true) :
    initModule env ienv (fuel + 1) reg name = (reg, [], Except.ok true) := by
  simp [initModule, (contains_eq_mem _ _).mp h]

theorem initModule_succ_missing {α : Type} (env : Nat → List (Option α) → Option α) (ienv : α → Bool)
    (fuel : Nat) (reg : Registry α) (name : String)
    (h : reg.initialized.contains name = false)
    (hl : List.lookup name reg.modules = none) :
    initModule env ienv (fuel + 1) reg name = (reg, [], Except.ok false) := by
  simp [initModule, not_mem_of_contains_false h, hl]

theorem initModule_succ_error {α : Type} (env : Nat → List (Option α) → Option α) (ienv : α → Bool)
    (fuel : Nat) (reg : Registry α) (name : String) (e : ModEntry α) (u : Unit)
    (h : reg.initialized.contains name = false)
    (hl : List.lookup name reg.modules = some e)
    (he : (initList env ienv fuel reg e.deps).2.2 = Except.error u) :
    initModule env ienv (fuel + 1) reg name
      = ((initList env ienv fuel reg e.deps).1, (initList env ienv fuel reg e.deps).2.1,
          Except.error ()) := by
  simp [initModule, not_mem_of_contains_false h, hl, he]

theorem initModule_succ_truthy {α : Type} (env : Nat → List (Option α) → Option α) (ienv : α → Bool)
    (fuel : Nat) (reg : Registry α) (name : String) (e : ModEntry α) (w : Unit) (v : α)
    (h : reg.initialized.contains name = false)
    (hl : List.lookup name reg.modules = some e)
    (he : (initList env ienv fuel reg e.deps).2.2 = Except.ok w)
    (hv : env e.factoryId (depInstsOf (initList env ienv fuel reg e.deps).1 e.deps) = some v) :
    initModule env ienv (fuel + 1) reg name
      = ({ (initList env ienv fuel reg e.deps).1 with
            modules := setA (initList env ienv fuel reg e.deps).1.modules name
              ⟨e.factoryId, e.deps, some v⟩,
            initialized := name :: (initList env ienv fuel reg e.deps).1.initialized },
          (initList env ienv fuel reg e.deps).2.1 ++ [(name, e.factoryId, true)],
          Except.ok (ienv v)) := by
  simp [initModule, not_mem_of_contains_false h, hl, he, hv]

theorem initModule_succ_falsy {α : Type} (env : Nat → List (Option α) → Option α) (ienv : α → Bool)
    (fuel : Nat) (reg : Registry α) (name : String) (e : ModEntry α) (w : Unit)
    (h : reg.initialized.contains name = false)
    (hl : List.lookup name reg.modules = some e)
    (he : (initList env ienv fuel reg e.deps).2.2 = Except.ok w)
    (hv : env e.factoryId (depInstsOf (initList env ienv fuel reg e.deps).1 e.deps) = none) :
    initModule env ienv (fuel + 1) reg name
      = ((initList env ienv fuel reg e.deps).1,
          (initList env ienv fuel reg e.deps).2.1 ++ [(name, e.factoryId, false)],
          Except.ok false) := by
  simp [initModule, not_mem_of_contains_false h, hl, he, hv]

theorem initList_nil {α : Type} (env : Nat → List (Option α) → Option α) (ienv : α → Bool)
    (fuel : Nat) (reg : Registry α) :
    initList env ienv fuel reg [] = (reg, [], Except.ok ()) := by
  cases fuel <;> simp [initList]

theorem initList_cons_error {α : Type} (env : Nat → List (Option α) → Option α) (ienv : α → Bool)
    (fuel : Nat) (reg : Registry α) (d : String) (ds : List String) (u : Unit)
    (h : (initModule env ienv fuel reg d).2.2 = Except.error u) :
    initList env ienv fuel reg (d :: ds)
      = ((initModule env ienv fuel reg d).1, (initModule env ienv fuel reg d).2.1,
          Except.error ()) := by
  cases fuel <;> simp [initList, h]

theorem initList_cons_ok {α : Type} (env : Nat → List (Option α) → Option α) (ienv : α → Bool)
    (fuel : Nat) (reg : Registry α) (d : String) (ds : List String) (b : Bool)
    (h : (initModule env ienv fuel reg d).2.2 = Except.ok b) :
    initList env ienv fuel reg (d :: ds)
      = ((initList env ienv fuel (initModule env ienv fuel reg d).1 ds).1,
          (initModule env ienv fuel reg d).2.1
            ++ (initList env ienv fuel (initModule env ienv fuel reg d).1 ds).2.1,
          (initList env ienv fuel (initModule env ienv fuel reg d).1 ds).2.2) := by
  cases fuel <;> simp [initList, h]

end ModuleLoader

namespace ModuleLoader

theorem depsOf_eq_of_sig {α : Type} {reg1 reg2 : Registry α}
    (h : ∀ m, entrySig reg1 m = entrySig reg2 m) (m : String) :
    depsOf reg1 m = depsOf reg2 m := by
  have hm := h m
  unfold entrySig at hm
  unfold depsOf
  rcases h1 : List.lookup m reg1.modules with _ | e1 <;>
    rcases h2 : List.lookup m reg2.modules with _ | e2 <;>
      rw [h1, h2] at hm <;> simp at hm <;> simp [hm]

theorem reachTG_eq_of_sig {α : Type} {reg1 reg2 : Registry α}
    (h : ∀ m, entrySig reg1 m = entrySig reg2 m) (a b : String) :
    ReachTG reg1 a b ↔ ReachTG reg2 a b := by
  have hedge : DepEdge reg1 = DepEdge reg2 := by
    funext x y
    unfold DepEdge
    rw [depsOf_eq_of_sig h]
  unfold ReachTG
  rw [hedge]

/-- Combined invariants of one initModule run and one initList run, by
induction on the call-stack fuel: the factory and dependency fields of every
entry are unchanged, the initialised set only grows, and every trace entry
records the stored factory of a module that is the initialised name itself
(respectively one of the looped dependency names) or transitively reachable
from it. -/
theorem init_run_sound {α : Type} (env : Nat → List (Option α) → Option α) (ienv : α → Bool) :
    ∀ fuel : Nat,
      (∀ (reg : Registry α) (name : String),
        (∀ m, entrySig (initModule env ienv fuel reg name).1 m = entrySig reg m)
        ∧ (∀ x, x ∈ reg.initialized → x ∈ (initModule env ienv fuel reg name).1.initialized)
        ∧ (∀ m f s, (m, f, s) ∈ (initModule env ienv fuel reg name).2.1 →
            (∃ en, List.lookup m reg.modules = some en ∧ en.factoryId = f)
            ∧ (m = name ∨ ReachTG reg name m)))
      ∧ (∀ (reg : Registry α) (deps : List String),
        (∀ m, entrySig (initList env ienv fuel reg deps).1 m = entrySig reg m)
        ∧ (∀ x, x ∈ reg.initialized → x ∈ (initList env ienv fuel reg deps).1.initialized)
        ∧ (∀ m f s, (m, f, s) ∈ (initList env ienv fuel reg deps).2.1 →
            (∃ en, List.lookup m reg.modules = some en ∧ en.factoryId = f)
            ∧ (∃ d ∈ deps, m = d ∨ ReachTG reg d m))) := by
  have hMcase : ∀ fuel : Nat,
      (∀ (reg : Registry α) (deps : List String),
        (∀ m, entrySig (initList env ienv fuel reg deps).1 m = entrySig reg m)
        ∧ (∀ x, x ∈ reg.initialized → x ∈ (initList env ienv fuel reg deps).1.initialized)
        ∧ (∀ m f s, (m, f, s) ∈ (initList env ienv fuel reg deps).2.1 →
            (∃ en, List.lookup m reg.modules = some en ∧ en.factoryId = f)
            ∧ (∃ d ∈ deps, m = d ∨ ReachTG reg d m))) →
      (∀ (reg : Registry α) (name : String),
        (∀ m, entrySig (initModule env ienv (fuel + 1) reg name).1 m = entrySig reg m)
        ∧ (∀ x, x ∈ reg.initialized →
            x ∈ (initModule env ienv (fuel + 1) reg name).1.initialized)
        ∧ (∀ m f s, (m, f, s) ∈ (initModule env ienv (fuel + 1) reg name).2.1 →
            (∃ en, List.lookup m reg.modules = some en ∧ en.factoryId = f)
            ∧ (m = name ∨ ReachTG reg name m))) := by
    intro fuel ihL reg name
    cases hinit : reg.initialized.contains name with
    | true =>
      rw [initModule_succ_initialized env ienv fuel reg name hinit]
      exact ⟨fun m => rfl, fun x hx => hx, fun m f s hm => by cases hm⟩
    | false =>
      rcases hlook : List.lookup name reg.modules with _ | e
      · rw [initModule_succ_missing env ienv fuel reg name hinit hlook]
        exact ⟨fun m => rfl, fun x hx => hx, fun m f s hm => by cases hm⟩
      · have hsig1 := (ihL reg e.deps).1
        have hini1 := (ihL reg e.deps).2.1
        have htr1 := (ihL reg e.deps).2.2
        have hreach : ∀ m f s, (m, f, s) ∈ (initList env ienv fuel reg e.deps).2.1 →
            (∃ en, List.lookup m reg.modules = some en ∧ en.factoryId = f)
            ∧ (m = name ∨ ReachTG reg name m) := by
          intro m f s hm
          rcases htr1 m f s hm with ⟨hen, d, hd, hcase⟩
          refine ⟨hen, Or.inr ?_⟩
          have hedge : DepEdge reg name d := by
            unfold DepEdge depsOf
            rw [hlook]
            exact hd
          rcases hcase with rfl | hr
          · exact Relation.TransGen.single hedge
          · exact Relation.TransGen.head hedge hr
        rcases hout : (initList env ienv fuel reg e.deps).2.2 with u | b
        · rw [initModule_succ_error env ienv fuel reg name e u hinit hlook hout]
          exact ⟨hsig1, hini1, hreach⟩
        · rcases henv : env e.factoryId (depInstsOf (initList env ienv fuel reg e.deps).1 e.deps)
            with _ | v
          · rw [initModule_succ_falsy env ienv fuel reg name e b hinit hlook hout henv]
            refine ⟨hsig1, hini1, fun m f s hm => ?_⟩
            rcases List.mem_append.mp hm with hm1 | hm2
            · exact hreach m f s hm1
            · simp at hm2
              rcases hm2 with ⟨rfl, rfl, rfl⟩
              exact ⟨⟨e, hlook, rfl⟩, Or.inl rfl⟩
          · rw [initModule_succ_truthy env ienv fuel reg name e b v hinit hlook hout henv]
            refine ⟨fun m => ?_, fun x hx => ?_, fun m f s hm => ?_⟩
            · by_cases hmn : m = name
              · subst hmn
                rw [entrySig]
                simp only [lookup_setA_self]
                have := hsig1 m
                rw [entrySig, entrySig, hlook] at this
                rw [entrySig, hlook]
                simp
              · rw [entrySig, lookup_setA_ne _ _ _ _ hmn]
                exact hsig1 m
            · exact List.mem_cons_of_mem _ (hini1 x hx)
            · rcases List.mem_append.mp hm with hm1 | hm2
              · exact hreach m f s hm1
              · simp at hm2
                rcases hm2 with ⟨rfl, rfl, rfl⟩
                exact ⟨⟨e, hlook, rfl⟩, Or.inl rfl⟩
  have hLcase : ∀ fuel : Nat,
      (∀ (reg : Registry α) (name : String),
        (∀ m, entrySig (initModule env ienv fuel reg name).1 m = entrySig reg m)
        ∧ (∀ x, x ∈ reg.initialized → x ∈ (initModule env ienv fuel reg name).1.initialized)
        ∧ (∀ m f s, (m, f, s) ∈ (initModule env ienv fuel reg name).2.1 →
            (∃ en, List.lookup m reg.modules = some en ∧ en.factoryId = f)
            ∧ (m = name ∨ ReachTG reg name m))) →
      (∀ (reg : Registry α) (deps : List String),
        (∀ m, entrySig (initList env ienv fuel reg deps).1 m = entrySig reg m)
        ∧ (∀ x, x ∈ reg.initialized → x ∈ (initList env ienv fuel reg deps).1.initialized)
        ∧ (∀ m f s, (m, f, s) ∈ (initList env ienv fuel reg deps).2.1 →
            (∃ en, List.lookup m reg.modules = some en ∧ en.factoryId = f)
            ∧ (∃ d ∈ deps, m = d ∨ ReachTG reg d m))) := by
    intro fuel ihM reg deps
    induction deps generalizing reg with
    | nil =>
      rw [initList_nil]
      exact ⟨fun m => rfl, fun x hx => hx, fun m f s hm => by cases hm⟩
    | cons d ds ihd =>
      have h1 := ihM reg d
      rcases hout : (initModule env ienv fuel reg d).2.2 with u | b
      · rw [initList_cons_error env ienv fuel reg d ds u hout]
        refine ⟨h1.1, h1.2.1, fun m f s hm => ?_⟩
        rcases h1.2.2 m f s hm with ⟨hen, hc⟩
        exact ⟨hen, d, List.mem_cons_self _ _, hc⟩
      · have h2 := ihd (initModule env ienv fuel reg d).1
        rw [initList_cons_ok env ienv fuel reg d ds b hout]
        refine ⟨fun m => ?_, fun x hx => ?_, fun m f s hm => ?_⟩
        · rw [h2.1 m]
          exact h1.1 m
        · exact h2.2.1 x (h1.2.1 x hx)
        · rcases List.mem_append.mp hm with hm1 | hm2
          · rcases h1.2.2 m f s hm1 with ⟨hen, hc⟩
            exact ⟨hen, d, List.mem_cons_self _ _, hc⟩
          · rcases h2.2.2 m f s hm2 with ⟨⟨en, hen, hfa⟩, d', hd', hc⟩
            have hsig := h1.1 m
            rw [entrySig, entrySig, hen] at hsig
            rcases hlook2 : List.lookup m reg.modules with _ | en2
            · rw [hlook2] at hsig
              simp at hsig
            · rw [hlook2] at hsig
              simp at hsig
              refine ⟨⟨en2, rfl, by rw [← hfa, hsig.1]⟩, d',
                List.mem_cons_of_mem _ hd', ?_⟩
              rcases hc with rfl | hr
              · exact Or.inl rfl
              · exact Or.inr ((reachTG_eq_of_sig h1.1 d' m).mp hr)
  intro fuel
  induction fuel with
  | zero =>
    have hM0 : ∀ (reg : Registry α) (name : String),
        (∀ m, entrySig (initModule env ienv 0 reg name).1 m = entrySig reg m)
        ∧ (∀ x, x ∈ reg.initialized → x ∈ (initModule env ienv 0 reg name).1.initialized)
        ∧ (∀ m f s, (m, f, s) ∈ (initModule env ienv 0 reg name).2.1 →
            (∃ en, List.lookup m reg.modules = some en ∧ en.factoryId = f)
            ∧ (m = name ∨ ReachTG reg name m)) := by
      intro reg name
      rw [initModule_zero]
      exact ⟨fun m => rfl, fun x hx => hx, fun m f s hm => by cases hm⟩
    exact ⟨hM0, hLcase 0 hM0⟩
  | succ fuel ih =>
    have hM := hMcase fuel ih.2
    exact ⟨hM, hLcase (fuel + 1) hM⟩

end ModuleLoader

namespace ModuleLoader

/-- Claim C2, counterexample part: registering the name m twice (factory 1,
then factory 2) leaves factory 2 in the registry, not factory 1, and a
subsequent init('m') invokes factory 2 — the second registration overwrites
the first rather than being rejected. -/
theorem C2_counterexample :
    List.lookup "m" regTwice.modules = some ⟨2, [], none⟩
    ∧ ¬ List.lookup "m" regTwice.modules = some ⟨1, [], none⟩
    ∧ (initModule envId ienvOk 1 regTwice "m").2.1 = [("m", 2, true)] := by
  refine ⟨?_, ?_, ?_⟩
  · simp [regTwice, register, isBlank, emptyRegistry, setA, List.lookup]
  · simp [regTwice, register, isBlank, emptyRegistry, setA, List.lookup]
  · simp [initModule, initList, regTwice, register, isBlank, emptyRegistry, setA,
      envId, ienvOk, depInstsOf, List.lookup]

/-- Claim C2 (amended): when a non-blank name with a callable factory is
registered twice, the second registration overwrites the first: the registry
stores the second call's factory and dependency list with a cleared
instance slot, and any factory invocation that a subsequent init(name)
performs for that name uses the second call's factory. -/
theorem C2_reregistration_overwrites {α : Type} (reg : Registry α) (n : String)
    (f1 f2 : Nat) (d1 d2 : Option (List String)) (hvalid : isBlank n = false) :
    List.lookup n (register (register reg n (some f1) d1) n (some f2) d2).modules
      = some ⟨f2, d2.getD [], none⟩
    ∧ (∀ (env : Nat → List (Option α) → Option α) (ienv : α → Bool) (fuel : Nat) (f : Nat) (s : Bool),
        (n, f, s) ∈ (initModule env ienv fuel
          (register (register reg n (some f1) d1) n (some f2) d2) n).2.1 → f = f2) := by
  have hlook : List.lookup n (register (register reg n (some f1) d1)
      n (some f2) d2).modules = some ⟨f2, d2.getD [], none⟩ := by
    simp only [register, hvalid, Bool.false_eq_true, if_false]
    exact lookup_setA_self _ _ _
  refine ⟨hlook, fun env ienv fuel f s hm => ?_⟩
  rcases ((init_run_sound env ienv fuel).1 _ n).2.2 n f s hm with ⟨⟨en, hen, hfa⟩, _⟩
  rw [hlook] at hen
  cases hen
  exact hfa.symm

/-- Claim C2, witness: the amended theorem applied to the concrete double
registration of the counterexample. -/
theorem C2_witness :
    List.lookup "m" (register (register (emptyRegistry Nat) "m" (some 1) none)
        "m" (some 2) none).modules = some ⟨2, Option.none.getD [], none⟩
    ∧ (∀ (env : Nat → List (Option Nat) → Option Nat) (ienv : Nat → Bool) (fuel : Nat) (f : Nat) (s : Bool),
        (("m" : String), f, s) ∈ (initModule env ienv fuel
          (register (register (emptyRegistry Nat) "m" (some 1) none)
            "m" (some 2) none) "m").2.1 → f = 2) :=
  C2_reregistration_overwrites (emptyRegistry Nat) "m" 1 2 none none (by decide)

end ModuleLoader

namespace ModuleLoader

theorem reachTG_not_of_no_edges {α : Type} {reg : Registry α}
    (h : ∀ a b, ¬ DepEdge reg a b) (a b : String) : ¬ ReachTG reg a b := by
  intro hr
  induction hr with
  | single he => exact h _ _ he
  | tail _ he _ => exact h _ _ he

theorem register_initialized {α : Type} (reg : Registry α) (name : String)
    (fid : Nat) (deps : Option (List String)) (hvalid : isBlank name = false) :
    (register reg name (some fid) deps).initialized = reg.initialized := by
  simp [register, hvalid]

theorem register_lookup_self {α : Type} (reg : Registry α) (name : String)
    (fid : Nat) (deps : Option (List String)) (hvalid : isBlank name = false) :
    List.lookup name (register reg name (some fid) deps).modules
      = some ⟨fid, deps.getD [], none⟩ := by
  simp only [register, hvalid, Bool.false_eq_true, if_false]
  exact lookup_setA_self _ _ _

/-- Claim C4: a valid registration of a fresh name whose factory always
returns a truthy instance, followed by an init(name) call that completes
(no call-stack overflow — guaranteed when the name does not lie on a
dependency cycle, which the hypothesis states directly), invokes that
name's factory exactly once and memoises the produced instance so that
get(name) returns it; the call's boolean result is the outcome of the
created instance's own init method (false exactly when instance.init()
throws, the instance staying memoised and the name initialised either way),
and a repeated init(name) returns success immediately with no further
factory invocation and no state change. -/
theorem C4_register_init_memoizes {α : Type} (reg : Registry α) (name : String)
    (fid : Nat) (deps : Option (List String)) (env : Nat → List (Option α) → Option α) (ienv : α → Bool)
    (fuel : Nat) (reg' : Registry α) (tr : List ITraceEntry) (b : Bool)
    (hvalid : isBlank name = false)
    (hfresh : reg.initialized.contains name = false)
    (htruthy : ∀ args, (env fid args).isSome)
    (hnc : ¬ ReachTG (register reg name (some fid) deps) name name)
    (hrun : initModule env ienv fuel (register reg name (some fid) deps) name
      = (reg', tr, Except.ok b)) :
    tr.countP (fun en => decide (en.1 = name)) = 1
    ∧ (∃ v, List.lookup name reg'.modules = some ⟨fid, deps.getD [], some v⟩
        ∧ get reg' name = some v ∧ b = ienv v)
    ∧ (∀ fuel2, initModule env ienv (fuel2 + 1) reg' name = (reg', [], Except.ok true)) := by
  have hlook := register_lookup_self reg name fid deps hvalid
  have hinit2 : (register reg name (some fid) deps).initialized.contains name = false := by
    rw [register_initialized reg name fid deps hvalid]
    exact hfresh
  cases fuel with
  | zero =>
    rw [initModule_zero] at hrun
    simp at hrun
  | succ f =>
    rcases hout : (initList env ienv f (register reg name (some fid) deps)
        (deps.getD [])).2.2 with u | w
    · have := initModule_succ_error env ienv f _ name ⟨fid, deps.getD [], none⟩ u
        hinit2 hlook hout
      rw [this] at hrun
      simp at hrun
    · rcases henv : env fid (depInstsOf
          (initList env ienv f (register reg name (some fid) deps) (deps.getD [])).1
          (deps.getD [])) with _ | v
      · have hs := htruthy (depInstsOf
          (initList env ienv f (register reg name (some fid) deps) (deps.getD [])).1
          (deps.getD []))
        rw [henv] at hs
        cases hs
      · have hunf := initModule_succ_truthy env ienv f _ name ⟨fid, deps.getD [], none⟩ w v
          hinit2 hlook hout henv
        rw [hunf] at hrun
        rw [Prod.mk.injEq, Prod.mk.injEq] at hrun
        obtain ⟨hreg', htr, hb⟩ := hrun
        have hbv : b = ienv v := by
          injection hb with h
          exact h.symm
        have hnone : ∀ en ∈ (initList env ienv f (register reg name (some fid) deps)
            (deps.getD [])).2.1, ¬ (en.1 = name) := by
          intro en hen hname
          rcases ((init_run_sound env ienv f).2 _ (deps.getD [])).2.2 en.1 en.2.1 en.2.2 hen
            with ⟨_, d, hd, hc⟩
          rw [hname] at hc
          have hedge : DepEdge (register reg name (some fid) deps) name d := by
            unfold DepEdge depsOf
            rw [hlook]
            exact hd
          rcases hc with rfl | hr
          · exact hnc (Relation.TransGen.single hedge)
          · exact hnc (Relation.TransGen.head hedge hr)
        have hcount : tr.countP (fun en => decide (en.1 = name)) = 1 := by
          rw [← htr, List.countP_append]
          have h0 : (initList env ienv f (register reg name (some fid) deps)
              (deps.getD [])).2.1.countP (fun en => decide (en.1 = name)) = 0 := by
            rw [List.countP_eq_zero]
            intro en hen
            simpa using hnone en hen
          rw [h0]
          simp
        have hlook' : List.lookup name reg'.modules
            = some ⟨fid, deps.getD [], some v⟩ := by
          rw [← hreg']
          exact lookup_setA_self _ _ _
        refine ⟨hcount, ⟨v, hlook', ?_, hbv⟩, fun fuel2 => ?_⟩
        · rw [get, hlook']
        · have hcont : reg'.initialized.contains name = true := by
            rw [← hreg']
            simp [contains_eq_mem]
          exact initModule_succ_initialized env ienv fuel2 reg' name hcont

end ModuleLoader

namespace ModuleLoader

/-- Claim C4, witness: the theorem applied to a concrete fresh registration
(name m, factory 7 returning its own identity, no dependencies) initialised
with one stack frame of fuel. -/
theorem C4_witness :
    ([(("m" : String), 7, true)] : List ITraceEntry).countP
        (fun en => decide (en.1 = "m")) = 1
    ∧ (∃ v, List.lookup "m"
          (Registry.mk [("m", ⟨7, [], some 7⟩)] [] ["m"] : Registry Nat).modules
          = some ⟨7, Option.none.getD [], some v⟩
        ∧ get (Registry.mk [("m", ⟨7, [], some 7⟩)] [] ["m"] : Registry Nat) "m" = some v
        ∧ true = ienvOk v)
    ∧ (∀ fuel2, initModule envId ienvOk (fuel2 + 1)
        (Registry.mk [("m", ⟨7, [], some 7⟩)] [] ["m"] : Registry Nat) "m"
        = (Registry.mk [("m", ⟨7, [], some 7⟩)] [] ["m"], [], Except.ok true)) := by
  have hreg2 : register (emptyRegistry Nat) "m" (some 7) none
      = Registry.mk [("m", ⟨7, [], none⟩)] [] [] := by
    simp [register, isBlank, emptyRegistry, setA]
  refine C4_register_init_memoizes (emptyRegistry Nat) "m" 7 none envId ienvOk 1
    (Registry.mk [("m", ⟨7, [], some 7⟩)] [] ["m"]) [("m", 7, true)] true
    (by decide) (by decide) (fun args => rfl) ?_ ?_
  · rw [hreg2]
    refine reachTG_not_of_no_edges ?_ "m" "m"
    intro a b h
    unfold DepEdge depsOf at h
    rcases hl : List.lookup a
        (Registry.mk [("m", (⟨7, [], none⟩ : ModEntry Nat))] [] []).modules with _ | e
    · rw [hl] at h
      simp at h
    · rw [hl] at h
      have hmem := mem_of_lookup_eq_some hl
      simp at hmem
      rw [hmem.2] at h
      simp at h
  · rw [hreg2]
    simp [initModule, initList, envId, ienvOk, depInstsOf, List.lookup, setA,
      contains_eq_mem]

end ModuleLoader

namespace EventBus

theorem emitLoop_spec (env : Nat → List JVal → Except Unit JVal) (event : String)
    (data : JVal) : ∀ (L : List (Listener × Bool × Bool)) (bus : Bus),
    (emitLoop env event data L bus).2.2 = L.map (fun p => p.1.cbId)
    ∧ (emitLoop env event data L bus).1 = L.filterMap (fun p =>
        match env p.1.cbId (if p.2.2 then [JVal.str event, data] else [data]) with
        | Except.ok v => some v
        | Except.error _ => none) := by
  intro L
  induction L with
  | nil => intro bus; simp [emitLoop]
  | cons p rest ih =>
    intro bus
    obtain ⟨l, isOnce, isWild⟩ := p
    constructor
    · simp only [emitLoop]
      rw [List.map_cons]
      exact congrArg _ ((ih _).1)
    · simp only [emitLoop, List.filterMap_cons]
      rcases henv : env l.cbId (if isWild then [JVal.str event, data] else [data])
        with u | v <;>
        simp [henv, (ih _).2]

/-- Claim C6: dispatch is exception-isolated.  The trace of invoked
callbacks for an emit is exactly the reversed snapshot of all listeners,
independently of which callbacks throw (so a raising callback never stops
delivery to the remaining listeners), and the returned result sequence
collects, in delivery order, exactly the values of the callbacks that did
not throw.  emit itself is a total function of the embedded state — the
exception a callback raises is consumed at the dispatch site and never
escapes. -/
theorem C6_emit_isolated (env env' : Nat → List JVal → Except Unit JVal)
    (bus : Bus) (event : String) (data : JVal) :
    (emit env bus event data).2.2 = ((snapshot bus event).reverse).map (fun p => p.1.cbId)
    ∧ (emit env bus event data).2.2 = (emit env' bus event data).2.2
    ∧ (emit env bus event data).1 = ((snapshot bus event).reverse).filterMap (fun p =>
        match env p.1.cbId (if p.2.2 then [JVal.str event, data] else [data]) with
        | Except.ok v => some v
        | Except.error _ => none) := by
  refine ⟨(emitLoop_spec env event data _ bus).1, ?_,
    (emitLoop_spec env event data _ bus).2⟩
  show (emitLoop env event data (snapshot bus event).reverse bus).2.2
    = (emitLoop env' event data (snapshot bus event).reverse bus).2.2
  rw [(emitLoop_spec env event data _ bus).1, (emitLoop_spec env' event data _ bus).1]

end EventBus

namespace EventBus

/-- Claim C7: after once('x', cb) on an otherwise empty bus, the first
emit('x', ...) invokes cb exactly once (the invocation trace is [cb]) and
removes the once entry immediately, so the bus has no 'x' listeners left and
a second emit('x', ...) delivers to no listener at all. -/
theorem C7_once_delivers_once (env : Nat → List JVal → Except Unit JVal)
    (cb : Nat) (prio : Int) (p1 p2 : JVal) :
    (once emptyBus "x" (some cb) prio).1 = some "once_1"
    ∧ (emit env (once emptyBus "x" (some cb) prio).2 "x" p1).2.2 = [cb]
    ∧ hasListeners (emit env (once emptyBus "x" (some cb) prio).2 "x" p1).2.1 "x" = false
    ∧ (emit env (emit env (once emptyBus "x" (some cb) prio).2 "x" p1).2.1 "x" p2).2.2
        = [] := by
  have hid : "once_" ++ Nat.repr 1 = "once_1" := rfl
  have hbus : (once emptyBus "x" (some cb) prio).2
      = Bus.mk [] [("x", [⟨"once_1", cb, prio⟩])] 1 := by
    simp [once, emptyBus, setA, List.lookup, hid]
  have hsnap : snapshot (Bus.mk [] [("x", [(⟨"once_1", cb, prio⟩ : Listener)])] 1) "x"
      = [(⟨"once_1", cb, prio⟩, true, false)] := by
    simp [snapshot, List.lookup]
  have hoff : (off (Bus.mk [] [("x", [(⟨"once_1", cb, prio⟩ : Listener)])] 1) "x"
      (OffArg.byId "once_1")).1 = Bus.mk [] [] 1 := by
    simp [off, offMatch, delA, setA, List.lookup]
  have hemit1 : (emit env (once emptyBus "x" (some cb) prio).2 "x" p1).2.1
      = Bus.mk [] [] 1 := by
    rw [hbus]
    simp only [emit, hsnap, List.reverse_cons, List.reverse_nil, List.nil_append]
    simp only [emitLoop, if_true]
    rw [hoff]
  refine ⟨?_, ?_, ?_, ?_⟩
  · simp [once, emptyBus, setA, List.lookup, hid]
  · rw [hbus]
    simp only [emit, hsnap, List.reverse_cons, List.reverse_nil, List.nil_append]
    simp [emitLoop]
  · rw [hemit1]
    simp [hasListeners, List.lookup]
  · rw [hemit1]
    simp [emit, snapshot, emitLoop, List.lookup]

end EventBus

namespace EventBus

theorem busC1_eq : busC1 = Bus.mk
    [("x", [⟨"listener_1", 2, 10⟩, ⟨"listener_2", 1, 5⟩])] [] 2 := by
  have hid1 : "listener_" ++ Nat.repr 1 = "listener_1" := rfl
  have hid2 : "listener_" ++ Nat.repr 2 = "listener_2" := rfl
  have hsort : ([⟨"listener_1", 2, 10⟩, ⟨"listener_2", 1, 5⟩] : List Listener).mergeSort
      descPriority = [⟨"listener_1", 2, 10⟩, ⟨"listener_2", 1, 5⟩] := by
    refine List.mergeSort_of_sorted ?_
    decide
  simp [busC1, on', emptyBus, setA, List.lookup, hid1, hid2, hsort]

theorem emit_busC1 (env : Nat → List JVal → Except Unit JVal) (p : JVal) :
    emit env busC1 "x" p
      = ((match env 2 [p] with
          | Except.ok v2 =>
            (match env 1 [p] with
             | Except.ok v1 => [v1, v2]
             | Except.error _ => [v2])
          | Except.error _ =>
            (match env 1 [p] with
             | Except.ok v1 => [v1]
             | Except.error _ => [])),
          busC1, [1, 2]) := by
  rw [busC1_eq]
  simp only [emit, snapshot, List.lookup, emitLoop]
  rcases h1 : env 1 [p] with u1 | v1 <;> rcases h2 : env 2 [p] with u2 | v2 <;>
    simp [emitLoop, h1, h2, busC1_eq, List.lookup]

/-- Claim C1, counterexample part: with L1 (priority 5, callback 1) and L2
(priority 10, callback 2) standing on 'x', emit invokes callback 1 (L1)
first and callback 2 (L2) second — L2 is not invoked before L1, because the
dispatch loop walks the priority-descending array backwards. -/
theorem C1_counterexample :
    (emit envC1 busC1 "x" JVal.null).2.2 = [1, 2]
    ∧ ¬ ((emit envC1 busC1 "x" JVal.null).2.2.indexOf 2
          < (emit envC1 busC1 "x" JVal.null).2.2.indexOf 1) := by
  rw [emit_busC1 envC1 JVal.null]
  refine ⟨rfl, ?_⟩
  decide

/-- Claim C1 (amended): in the two-listener scenario, emit delivers to L1
(priority 5) before L2 (priority 10) — the reversed traversal of the
priority-descending array runs lower priorities first — and when L1's
callback throws, L2's return value is still present (indeed it is the whole
result sequence). -/
theorem C1_reversed_dispatch (env : Nat → List JVal → Except Unit JVal)
    (p : JVal) (v : JVal) (h1 : env 1 [p] = Except.error ())
    (h2 : env 2 [p] = Except.ok v) :
    (emit env busC1 "x" p).2.2 = [1, 2]
    ∧ (emit env busC1 "x" p).1 = [v] := by
  rw [emit_busC1 env p]
  simp [h1, h2]

/-- Claim C1, witness: the amended theorem at a concrete environment where
callback 1 throws and callback 2 returns the number 9. -/
theorem C1_witness :
    (emit (fun c _ => if c = 1 then Except.error () else Except.ok (JVal.num 9))
      busC1 "x" JVal.null).2.2 = [1, 2]
    ∧ (emit (fun c _ => if c = 1 then Except.error () else Except.ok (JVal.num 9))
      busC1 "x" JVal.null).1 = [JVal.num 9] :=
  C1_reversed_dispatch _ JVal.null (JVal.num 9) rfl rfl

end EventBus

namespace StateManager

theorem lookup_mapOverride (a b : List (String × JVal)) (k : String) :
    List.lookup k (a.map (fun p => (p.1, (List.lookup p.1 b).getD p.2)))
      = match List.lookup k a with
        | some v => some ((List.lookup k b).getD v)
        | none => none := by
  induction a with
  | nil => simp
  | cons p t ih =>
    obtain ⟨k0, v0⟩ := p
    by_cases hk : k = k0
    · subst hk
      simp [List.lookup_cons]
    · have hbeq : (k == k0) = false := beq_eq_false_iff_ne.mpr hk
      simp [List.lookup_cons, hbeq, ih]

theorem lookup_filterNone (a b : List (String × JVal)) (k : String) :
    List.lookup k (b.filter (fun p => (List.lookup p.1 a).isNone))
      = if (List.lookup k a).isNone then List.lookup k b else none := by
  induction b with
  | nil => simp
  | cons p t ih =>
    obtain ⟨k0, v0⟩ := p
    by_cases hkeep : (List.lookup k0 a).isNone
    · rw [List.filter_cons_of_pos (by simpa using hkeep)]
      by_cases hk : k = k0
      · subst hk
        simp [List.lookup_cons, hkeep]
      · have hbeq : (k == k0) = false := beq_eq_false_iff_ne.mpr hk
        simp [List.lookup_cons, hbeq, ih]
    · rw [List.filter_cons_of_neg (by simpa using hkeep)]
      by_cases hk : k = k0
      · subst hk
        rw [ih]
        simp [hkeep]
      · have hbeq : (k == k0) = false := beq_eq_false_iff_ne.mpr hk
        rw [ih, List.lookup_cons]
        simp [hbeq]

theorem lookup_mergeObj (a b : List (String × JVal)) (k : String) :
    List.lookup k (mergeObj a b)
      = match List.lookup k a with
        | some v => some ((List.lookup k b).getD v)
        | none => List.lookup k b := by
  unfold mergeObj
  rw [List.lookup_append, lookup_mapOverride, lookup_filterNone]
  rcases h : List.lookup k a with _ | v
  · simp [h]
  · simp [h]

/-- Claim C8: starting from a loaded store with no listeners, the sequence
setState({a:1}); addListener('a', cb_a); addListener('b', cb_b);
setState({a:2}) notifies nobody at the first setState (the trace is empty)
and at the second setState invokes exactly one listener: cb_a, registered
under 'a', with new value 2 and old value 1.  In particular cb_b, registered
the same way under 'b', is never invoked. -/
theorem C8_setState_notifies_key (m : List (String × JVal)) (stored : Option JVal)
    (ida idb : String) (cba cbb : Nat) :
    (setState (Store.mk (some m) [] stored) [("a", JVal.num 1)]).2.1 = []
    ∧ (setState (addListener (addListener
          (setState (Store.mk (some m) [] stored) [("a", JVal.num 1)]).1
          "a" (some cba) ida).2
          "b" (some cbb) idb).2
        [("a", JVal.num 2)]).2.1
      = [⟨"a", ida, cba, some (JVal.num 2), some (JVal.num 1)⟩] := by
  have hlook1 : List.lookup "a" (mergeObj m [("a", JVal.num 1)]) = some (JVal.num 1) := by
    rw [lookup_mergeObj]
    rcases h : List.lookup "a" m with _ | v <;> simp [h, List.lookup_cons]
  have hlook2 : List.lookup "a"
      (mergeObj (mergeObj m [("a", JVal.num 1)]) [("a", JVal.num 2)])
      = some (JVal.num 2) := by
    rw [lookup_mergeObj]
    rcases h : List.lookup "a" (mergeObj m [("a", JVal.num 1)]) with _ | v <;>
      simp [h, List.lookup_cons]
  constructor
  · simp [setState, ensureLoaded, notifyTrace]
  · simp only [setState, ensureLoaded, addListener, notifyTrace, setA, List.lookup]
    simp [List.lookup_cons, hlook1, hlook2]

end StateManager

namespace StateManager

theorem lookup_isSome_of_mem_keys {β : Type} {l : List (String × β)} {k : String}
    (h : k ∈ l.map Prod.fst) : (List.lookup k l).isSome = true := by
  induction l with
  | nil => simp at h
  | cons p t ih =>
    rw [List.map_cons] at h
    rcases List.mem_cons.mp h with hk | hk
    · rw [List.lookup_cons]
      simp [hk]
    · rw [List.lookup_cons]
      by_cases hkp : k = p.1
      · simp [hkp]
      · have hbeq : (k == p.1) = false := beq_eq_false_iff_ne.mpr hkp
        simp only [hbeq]
        exact ih hk

theorem keys_mergeObj (a b : List (String × JVal)) :
    (mergeObj a b).map Prod.fst
      = a.map Prod.fst
        ++ (b.filter (fun p => (List.lookup p.1 a).isNone)).map Prod.fst := by
  unfold mergeObj
  rw [List.map_append, List.map_map]
  rfl

theorem mergeObj_keys_nodup {a b : List (String × JVal)}
    (ha : (a.map Prod.fst).Nodup) (hb : (b.map Prod.fst).Nodup) :
    ((mergeObj a b).map Prod.fst).Nodup := by
  rw [keys_mergeObj]
  rw [List.nodup_append]
  refine ⟨ha, ?_, ?_⟩
  · have hsub : List.Sublist (b.filter (fun p => (List.lookup p.1 a).isNone)) b :=
      List.filter_sublist b
    exact hb.sublist (hsub.map Prod.fst)
  · intro x hx hx2
    rcases List.mem_map.mp hx2 with ⟨p, hp, hpx⟩
    rcases List.mem_filter.mp hp with ⟨_, hnone⟩
    rw [hpx] at hnone
    rw [Option.isNone_iff_eq_none] at hnone
    have := lookup_isSome_of_mem_keys hx
    rw [hnone] at this
    cases this

theorem StateKeysOk_default : StateKeysOk DEFAULT_STATE := by
  refine ⟨⟨[], by simp⟩, ?_⟩
  decide

theorem StateKeysOk_mergeObj {st u : List (String × JVal)} (h : StateKeysOk st)
    (hu : (u.map Prod.fst).Nodup) : StateKeysOk (mergeObj st u) := by
  rcases h with ⟨⟨tail, htail⟩, hnd⟩
  refine ⟨⟨tail ++ (u.filter (fun p => (List.lookup p.1 st).isNone)).map Prod.fst, ?_⟩,
    mergeObj_keys_nodup hnd hu⟩
  rw [keys_mergeObj, htail, List.append_assoc]

theorem map_override_left (D st1 st2 : List (String × JVal))
    (hk : st1.map Prod.fst = D.map Prod.fst)
    (hnd : ((st1 ++ st2).map Prod.fst).Nodup) :
    D.map (fun p => (p.1, (List.lookup p.1 (st1 ++ st2)).getD p.2)) = st1 := by
  induction D generalizing st1 with
  | nil =>
    have : st1 = [] := by
      cases st1 with
      | nil => rfl
      | cons q t => simp at hk
    rw [this]
    rfl
  | cons d D' ih =>
    cases st1 with
    | nil => simp at hk
    | cons q st1' =>
      rw [List.map_cons, List.map_cons] at hk
      have hq1 : q.1 = d.1 := by
        exact (List.cons.injEq _ _ _ _ ▸ hk).1
      have hk' : st1'.map Prod.fst = D'.map Prod.fst := by
        exact (List.cons.injEq _ _ _ _ ▸ hk).2
      have hq1' : q.1 ∉ (st1' ++ st2).map Prod.fst := by
        have := hnd
        rw [List.cons_append, List.map_cons, List.nodup_cons] at this
        exact this.1
      have hnd' : ((st1' ++ st2).map Prod.fst).Nodup := by
        have := hnd
        rw [List.cons_append, List.map_cons, List.nodup_cons] at this
        exact this.2
      rw [List.map_cons]
      have hhead : (d.1, (List.lookup d.1 ((q :: st1') ++ st2)).getD d.2) = q := by
        rw [List.cons_append, List.lookup_cons]
        have : (d.1 == q.1) = true := by
          rw [hq1]
          exact beq_self_eq_true _
        simp only [this]
        rw [Option.getD_some]
        exact Prod.ext hq1.symm rfl
      rw [hhead]
      have htail : D'.map (fun p => (p.1, (List.lookup p.1 ((q :: st1') ++ st2)).getD p.2))
          = D'.map (fun p => (p.1, (List.lookup p.1 (st1' ++ st2)).getD p.2)) := by
        refine List.map_congr_left ?_
        intro p hp
        have hp1 : p.1 ∈ D'.map Prod.fst := List.mem_map.mpr ⟨p, hp, rfl⟩
        rw [← hk'] at hp1
        have hpq : p.1 ≠ q.1 := by
          intro hcontra
          apply hq1'
          rw [← hcontra]
          rw [List.map_append]
          exact List.mem_append.mpr (Or.inl hp1)
        have hbeq : (p.1 == q.1) = false := beq_eq_false_iff_ne.mpr hpq
        rw [List.cons_append, List.lookup_cons]
        simp only [hbeq]
      rw [htail]
      rw [ih st1' hk' hnd']

theorem default_merge_self {st : List (String × JVal)} (h : StateKeysOk st) :
    mergeObj DEFAULT_STATE st = st := by
  rcases h with ⟨⟨tail, htail⟩, hnd⟩
  rcases List.map_eq_append_iff.mp htail with ⟨st1, st2, hsplit, hk1, hk2⟩
  subst hsplit
  unfold mergeObj
  have hpart1 : DEFAULT_STATE.map
      (fun p => (p.1, (List.lookup p.1 (st1 ++ st2)).getD p.2)) = st1 :=
    map_override_left DEFAULT_STATE st1 st2 hk1 hnd
  have hpart2 : (st1 ++ st2).filter
      (fun p => (List.lookup p.1 DEFAULT_STATE).isNone) = st2 := by
    rw [List.filter_append]
    have h1 : st1.filter (fun p => (List.lookup p.1 DEFAULT_STATE).isNone) = [] := by
      rw [List.filter_eq_nil_iff]
      intro p hp
      have hp1 : p.1 ∈ DEFAULT_STATE.map Prod.fst := by
        rw [← hk1]
        exact List.mem_map.mpr ⟨p, hp, rfl⟩
      have hsome := lookup_isSome_of_mem_keys hp1
      simp only [Option.isNone_iff_eq_none]
      intro hnone
      rw [hnone] at hsome
      cases hsome
    have h2 : st2.filter (fun p => (List.lookup p.1 DEFAULT_STATE).isNone) = st2 := by
      rw [List.filter_eq_self]
      intro p hp
      have hp1 : p.1 ∉ st1.map Prod.fst := by
        rw [List.map_append] at hnd
        rcases List.nodup_append.mp hnd with ⟨_, _, hdisj⟩
        intro hcontra
        exact hdisj hcontra (List.mem_map.mpr ⟨p, hp, rfl⟩)
      rw [hk1] at hp1
      simp only [Option.isNone_iff_eq_none]
      rcases hl : List.lookup p.1 DEFAULT_STATE with _ | v
      · rfl
      · exact absurd (List.mem_map.mpr
          ⟨(p.1, v), ModuleLoader.mem_of_lookup_eq_some hl, rfl⟩) hp1
    rw [h1, h2, List.nil_append]
  rw [hpart1, hpart2]

theorem reach_inv {s : Store} (h : Reachable s) :
    ∃ st, s.jstate = some st ∧ StateKeysOk st := by
  induction h with
  | loaded stored ls hnd =>
    rcases stored with _ | v
    · exact ⟨DEFAULT_STATE, rfl, StateKeysOk_default⟩
    · rcases hv : objFieldsOf v with _ | f
      · refine ⟨DEFAULT_STATE, ?_, StateKeysOk_default⟩
        simp [loadFromStorage, hv]
      · refine ⟨mergeObj DEFAULT_STATE f, ?_,
          StateKeysOk_mergeObj StateKeysOk_default (hnd v f rfl hv)⟩
        simp [loadFromStorage, hv]
  | setSt s updates _ hnd ih =>
    rcases ih with ⟨st, hst, hok⟩
    have hens : ensureLoaded s = s := by
      unfold ensureLoaded
      rw [hst]
    refine ⟨mergeObj st updates, ?_, StateKeysOk_mergeObj hok hnd⟩
    simp [setState, hens, hst]
  | resetSt s _ _ => exact ⟨DEFAULT_STATE, rfl, StateKeysOk_default⟩
  | importOk s v _ hnd ih =>
    rcases ih with ⟨st, hst, hok⟩
    rcases hv : objFieldsOf v with _ | f
    · refine ⟨st, ?_, hok⟩
      simp [importData, hv, hst]
    · refine ⟨mergeObj DEFAULT_STATE f, ?_,
        StateKeysOk_mergeObj StateKeysOk_default (hnd f hv)⟩
      simp [importData, hv]
  | addL s key cb newId _ ih =>
    rcases ih with ⟨st, hst, hok⟩
    rcases cb with _ | c
    · exact ⟨st, hst, hok⟩
    · exact ⟨st, hst, hok⟩
  | removeL s id _ ih =>
    rcases ih with ⟨st, hst, hok⟩
    exact ⟨st, hst, hok⟩
  | getSt s _ ih =>
    rcases ih with ⟨st, hst, hok⟩
    refine ⟨st, ?_, hok⟩
    simp [getState, ensureLoaded, hst]

/-- Claim C9: for every reachable state of the state store, import(export())
succeeds (returns true) and leaves the mapping returned by getState()
unchanged: export yields the state, import re-merges it over the defaults,
and since every reachable state already begins with the default keys the
merge is the identity. -/
theorem C9_export_import_roundtrip (s : Store) (h : Reachable s) :
    (importData s (exportData s)).2.2 = true
    ∧ (getState (importData s (exportData s)).1).1 = (getState s).1 := by
  rcases reach_inv h with ⟨st, hst, hok⟩
  have hexp : exportData s = JVal.obj st := by
    unfold exportData
    rw [hst]
  rw [hexp]
  have hmerge := default_merge_self hok
  constructor
  · simp [importData, objFieldsOf]
  · simp [importData, objFieldsOf, hmerge, getState, ensureLoaded, hst]

/-- Claim C9, witness: the round trip applied to the store freshly loaded
from an empty persistence port. -/
theorem C9_witness :
    (importData (loadFromStorage (Store.mk none [] none))
        (exportData (loadFromStorage (Store.mk none [] none)))).2.2 = true
    ∧ (getState (importData (loadFromStorage (Store.mk none [] none))
        (exportData (loadFromStorage (Store.mk none [] none)))).1).1
      = (getState (loadFromStorage (Store.mk none [] none))).1 :=
  C9_export_import_roundtrip _
    (Reachable.loaded none [] (fun v f hv _ => by cases hv))

end StateManager

namespace EventBus

theorem digitsLE_if (n : Nat) :
    digitsLE n = if n < 10 then [n] else (n % 10) :: digitsLE (n / 10) := by
  rw [digitsLE]

theorem digitsVal_digitsLE (n : Nat) : digitsVal (digitsLE n) = n := by
  induction n using Nat.strong_induction_on with
  | _ n ih =>
    rw [digitsLE_if]
    by_cases h : n < 10
    · simp [h, digitsVal]
    · have hdiv : n / 10 < n := Nat.div_lt_self (by omega) (by omega)
      simp only [h, if_false]
      rw [digitsVal, ih (n / 10) hdiv]
      omega

theorem digitsLE_inj {m n : Nat} (h : digitsLE m = digitsLE n) : m = n := by
  rw [← digitsVal_digitsLE m, ← digitsVal_digitsLE n, h]

theorem digitsLE_lt (n : Nat) : ∀ d ∈ digitsLE n, d < 10 := by
  induction n using Nat.strong_induction_on with
  | _ n ih =>
    rw [digitsLE_if]
    by_cases h : n < 10
    · simp [h]
    · have hdiv : n / 10 < n := Nat.div_lt_self (by omega) (by omega)
      simp only [h, if_false]
      intro d hd
      rcases List.mem_cons.mp hd with rfl | hd'
      · omega
      · exact ih (n / 10) hdiv d hd'

theorem toDigitsCore_spec :
    ∀ (fuel n : Nat) (acc : List Char), n < fuel →
      Nat.toDigitsCore 10 fuel n acc
        = ((digitsLE n).map Nat.digitChar).reverse ++ acc := by
  intro fuel
  induction fuel with
  | zero => intro n acc h; omega
  | succ fuel ih =>
    intro n acc h
    rw [Nat.toDigitsCore]
    by_cases h10 : n < 10
    · have hdiv : n / 10 = 0 := Nat.div_eq_of_lt h10
      have hmod : n % 10 = n := Nat.mod_eq_of_lt h10
      simp only [hdiv, if_true]
      rw [digitsLE_if]
      simp [h10, hmod]
    · have hdiv0 : ¬ (n / 10 = 0) := by
        intro hc
        omega
      have hlt : n / 10 < fuel := by
        have : n / 10 < n := Nat.div_lt_self (by omega) (by omega)
        omega
      rw [if_neg hdiv0]
      rw [ih (n / 10) (Nat.digitChar (n % 10) :: acc) hlt]
      rw [digitsLE_if n, if_neg h10]
      rw [List.map_cons, List.reverse_cons, List.append_assoc]
      rfl

theorem map_digitChar_inj :
    ∀ (l1 l2 : List Nat), (∀ x ∈ l1, x < 10) → (∀ x ∈ l2, x < 10) →
      l1.map Nat.digitChar = l2.map Nat.digitChar → l1 = l2 := by
  have hinj : ∀ a ∈ List.range 10, ∀ b ∈ List.range 10,
      Nat.digitChar a = Nat.digitChar b → a = b := by decide
  intro l1
  induction l1 with
  | nil =>
    intro l2 _ _ h
    cases l2 with
    | nil => rfl
    | cons b t => simp at h
  | cons a t ih =>
    intro l2 h1 h2 h
    cases l2 with
    | nil => simp at h
    | cons b u =>
      rw [List.map_cons, List.map_cons] at h
      have hab : Nat.digitChar a = Nat.digitChar b := (List.cons.injEq _ _ _ _ ▸ h).1
      have htu : t.map Nat.digitChar = u.map Nat.digitChar :=
        (List.cons.injEq _ _ _ _ ▸ h).2
      have ha := h1 a (List.mem_cons_self _ _)
      have hb := h2 b (List.mem_cons_self _ _)
      rw [hinj a (List.mem_range.mpr ha) b (List.mem_range.mpr hb) hab,
        ih u (fun x hx => h1 x (List.mem_cons_of_mem _ hx))
          (fun x hx => h2 x (List.mem_cons_of_mem _ hx)) htu]

theorem natRepr_inj {m n : Nat} (h : Nat.repr m = Nat.repr n) : m = n := by
  unfold Nat.repr at h
  unfold Nat.toDigits at h
  rw [toDigitsCore_spec (m + 1) m [] (Nat.lt_succ_self m),
    toDigitsCore_spec (n + 1) n [] (Nat.lt_succ_self n)] at h
  simp only [List.append_nil, List.asString] at h
  have hdata : (((digitsLE m).map Nat.digitChar).reverse : List Char)
      = ((digitsLE n).map Nat.digitChar).reverse := by
    exact congrArg String.data h
  have hmap : (digitsLE m).map Nat.digitChar = (digitsLE n).map Nat.digitChar :=
    List.reverse_injective hdata
  exact digitsLE_inj (map_digitChar_inj _ _ (digitsLE_lt m) (digitsLE_lt n) hmap)

end EventBus

namespace EventBus

theorem listenerId_inj {a b : Nat}
    (h : "listener_" ++ Nat.repr a = "listener_" ++ Nat.repr b) : a = b := by
  have hdata := congrArg String.data h
  rw [String.data_append, String.data_append] at hdata
  exact natRepr_inj (String.ext (List.append_cancel_left hdata))

theorem onceId_inj {a b : Nat}
    (h : "once_" ++ Nat.repr a = "once_" ++ Nat.repr b) : a = b := by
  have hdata := congrArg String.data h
  rw [String.data_append, String.data_append] at hdata
  exact natRepr_inj (String.ext (List.append_cancel_left hdata))

theorem listenerId_ne_onceId (a b : Nat) :
    ("listener_" ++ Nat.repr a : String) ≠ "once_" ++ Nat.repr b := by
  intro h
  have hdata := congrArg String.data h
  rw [String.data_append, String.data_append] at hdata
  have hhead := congrArg List.head? hdata
  have h1 : ("listener_".data ++ (Nat.repr a).data).head? = some 'l' := rfl
  have h2 : ("once_".data ++ (Nat.repr b).data).head? = some 'o' := rfl
  rw [h1, h2] at hhead
  cases hhead

theorem busId_ne {c1 c2 : Nat} {id1 id2 : String} (h1 : IsBusId c1 id1)
    (h2 : IsBusId c2 id2) (hn : ∀ n m, c1 < n → c2 < m → n ≠ m) : id1 ≠ id2 := by
  rcases h1 with ⟨n, hcn, hform1⟩
  rcases h2 with ⟨m, hcm, hform2⟩
  have hnm := hn n m hcn hcm
  intro heq
  subst heq
  rcases hform1 with rfl | rfl <;> rcases hform2 with h2 | h2
  · exact hnm (listenerId_inj h2)
  · exact listenerId_ne_onceId n m h2
  · exact listenerId_ne_onceId m n h2.symm
  · exact hnm (onceId_inj h2)

end EventBus

namespace EventBus

theorem off_counter (bus : Bus) (ev : String) (a : OffArg) :
    (off bus ev a).1.counter = bus.counter := by
  cases a with
  | undef =>
    by_cases hev : ev ≠ ""
    · simp [off, hev]
    · simp [off, hev]
  | byId s => rfl
  | byCb c => rfl

theorem emitLoop_counter (env : Nat → List JVal → Except Unit JVal) (ev : String)
    (d : JVal) : ∀ (L : List (Listener × Bool × Bool)) (bus : Bus),
    (emitLoop env ev d L bus).2.1.counter = bus.counter := by
  intro L
  induction L with
  | nil => intro bus; rfl
  | cons p rest ih =>
    intro bus
    obtain ⟨l, isOnce, isWild⟩ := p
    show (emitLoop env ev d rest _).2.1.counter = bus.counter
    rw [ih]
    cases isOnce with
    | true => simp [off_counter]
    | false => rfl

theorem IsBusId_mono {c c' : Nat} {id : String} (h : c ≤ c') (hb : IsBusId c' id) :
    IsBusId c id := by
  rcases hb with ⟨n, hn, hf⟩
  exact ⟨n, by omega, hf⟩

theorem runOps_ids_isBusId (env : Nat → List JVal → Except Unit JVal) :
    ∀ (ops : List BusOp) (bus : Bus) (id : String),
      id ∈ (runOps env ops bus).2 → IsBusId bus.counter id := by
  intro ops
  induction ops with
  | nil =>
    intro bus id h
    cases h
  | cons op rest ih =>
    intro bus id h
    cases op with
    | on' ev cb p =>
      cases cb with
      | none =>
        rcases List.mem_append.mp h with h1 | h2
        · simp [on', Option.toList] at h1
        · exact ih _ _ h2
      | some c =>
        rcases List.mem_append.mp h with h1 | h2
        · have : id = "listener_" ++ Nat.repr (bus.counter + 1) := by
            simpa [on', Option.toList] using h1
          exact ⟨bus.counter + 1, Nat.lt_succ_self _, Or.inl this⟩
        · have hb := ih _ _ h2
          have hc : (on' bus ev (some c) p).2.counter = bus.counter + 1 := rfl
          rw [hc] at hb
          exact IsBusId_mono (Nat.le_succ _) hb
    | once ev cb p =>
      cases cb with
      | none =>
        rcases List.mem_append.mp h with h1 | h2
        · simp [once, Option.toList] at h1
        · exact ih _ _ h2
      | some c =>
        rcases List.mem_append.mp h with h1 | h2
        · have : id = "once_" ++ Nat.repr (bus.counter + 1) := by
            simpa [once, Option.toList] using h1
          exact ⟨bus.counter + 1, Nat.lt_succ_self _, Or.inr this⟩
        · have hb := ih _ _ h2
          have hc : (once bus ev (some c) p).2.counter = bus.counter + 1 := rfl
          rw [hc] at hb
          exact IsBusId_mono (Nat.le_succ _) hb
    | off ev a =>
      rcases List.mem_append.mp h with h1 | h2
      · cases h1
      · have hb := ih _ _ h2
        rw [off_counter] at hb
        exact hb
    | emit ev d =>
      rcases List.mem_append.mp h with h1 | h2
      · cases h1
      · have hb := ih _ _ h2
        have : (emit env bus ev d).2.1.counter = bus.counter := emitLoop_counter env ev d _ bus
        rw [this] at hb
        exact hb

theorem runOps_ids_pairwise (env : Nat → List JVal → Except Unit JVal) :
    ∀ (ops : List BusOp) (bus : Bus), ((runOps env ops bus).2).Pairwise (· ≠ ·) := by
  intro ops
  induction ops with
  | nil => intro bus; exact List.Pairwise.nil
  | cons op rest ih =>
    intro bus
    have hfresh : ∀ (c : Nat) (pre : String) (bus1 : Bus), bus1.counter = bus.counter + 1 →
        (pre = "listener_" ∨ pre = "once_") →
        ∀ y ∈ (runOps env rest bus1).2, (pre ++ Nat.repr (bus.counter + 1) : String) ≠ y := by
      intro c pre bus1 hc hpre y hy
      have hb := runOps_ids_isBusId env rest bus1 y hy
      rw [hc] at hb
      rcases hb with ⟨m, hm, hform⟩
      rcases hpre with rfl | rfl
      · rcases hform with rfl | rfl
        · intro hcontra
          have := listenerId_inj hcontra
          omega
        · exact listenerId_ne_onceId _ _
      · rcases hform with rfl | rfl
        · intro hcontra
          exact listenerId_ne_onceId m (bus.counter + 1) hcontra.symm
        · intro hcontra
          have := onceId_inj hcontra
          omega
    cases op with
    | on' ev cb p =>
      cases cb with
      | none =>
        show ((on' bus ev none p).1.toList ++ (runOps env rest bus).2).Pairwise (· ≠ ·)
        simpa [on', Option.toList] using ih bus
      | some c =>
        show ((on' bus ev (some c) p).1.toList
          ++ (runOps env rest (on' bus ev (some c) p).2).2).Pairwise (· ≠ ·)
        rw [List.pairwise_append]
        refine ⟨by simp [on', Option.toList], ih _, ?_⟩
        intro x hx y hy
        have hx' : x = "listener_" ++ Nat.repr (bus.counter + 1) := by
          simpa [on', Option.toList] using hx
        rw [hx']
        exact hfresh c "listener_" _ rfl (Or.inl rfl) y hy
    | once ev cb p =>
      cases cb with
      | none =>
        show ((once bus ev none p).1.toList ++ (runOps env rest bus).2).Pairwise (· ≠ ·)
        simpa [once, Option.toList] using ih bus
      | some c =>
        show ((once bus ev (some c) p).1.toList
          ++ (runOps env rest (once bus ev (some c) p).2).2).Pairwise (· ≠ ·)
        rw [List.pairwise_append]
        refine ⟨by simp [once, Option.toList], ih _, ?_⟩
        intro x hx y hy
        have hx' : x = "once_" ++ Nat.repr (bus.counter + 1) := by
          simpa [once, Option.toList] using hx
        rw [hx']
        exact hfresh c "once_" _ rfl (Or.inr rfl) y hy
    | off ev a =>
      show (([] : List String) ++ (runOps env rest (off bus ev a).1).2).Pairwise (· ≠ ·)
      simpa using ih _
    | emit ev d =>
      show (([] : List String) ++ (runOps env rest (emit env bus ev d).2.1).2).Pairwise (· ≠ ·)
      simpa using ih _

end EventBus

namespace EventBus

theorem flatIds_setA_perm (l : List (String × List Listener)) (k : String)
    (g' : List Listener) :
    List.Perm (flatIds (setA l k g') ++ groupIds ((List.lookup k l).getD []))
      (groupIds g' ++ flatIds l) := by
  induction l with
  | nil =>
    simp [setA, flatIds, groupIds]
  | cons p t ih =>
    obtain ⟨k0, g0⟩ := p
    by_cases hk : k0 = k
    · subst hk
      rw [setA]
      simp only [if_pos rfl]
      rw [List.lookup_cons]
      simp only [beq_self_eq_true]
      show List.Perm ((groupIds g' ++ flatIds t) ++ groupIds g0)
        (groupIds g' ++ (groupIds g0 ++ flatIds t))
      rw [List.append_assoc]
      exact List.Perm.append_left _ List.perm_append_comm
    · rw [setA]
      simp only [if_neg hk]
      rw [List.lookup_cons]
      have hbeq : (k == k0) = false := beq_eq_false_iff_ne.mpr (fun h => hk h.symm)
      simp only [hbeq]
      show List.Perm ((groupIds g0 ++ flatIds (setA t k g'))
          ++ groupIds ((List.lookup k t).getD []))
        (groupIds g' ++ (groupIds g0 ++ flatIds t))
      rw [List.append_assoc]
      refine List.Perm.trans (List.Perm.append_left _ ih) ?_
      rw [← List.append_assoc, ← List.append_assoc]
      exact List.Perm.append_right _ List.perm_append_comm

theorem flatIds_delA_perm (l : List (String × List Listener)) (k : String) :
    List.Perm (flatIds (delA l k) ++ groupIds ((List.lookup k l).getD []))
      (flatIds l) := by
  induction l with
  | nil => simp [delA, flatIds, groupIds]
  | cons p t ih =>
    obtain ⟨k0, g0⟩ := p
    by_cases hk : k0 = k
    · subst hk
      rw [delA]
      simp only [if_pos rfl]
      rw [List.lookup_cons]
      simp only [beq_self_eq_true]
      show List.Perm (flatIds t ++ groupIds g0) (groupIds g0 ++ flatIds t)
      exact List.perm_append_comm
    · rw [delA]
      simp only [if_neg hk]
      rw [List.lookup_cons]
      have hbeq : (k == k0) = false := beq_eq_false_iff_ne.mpr (fun h => hk h.symm)
      simp only [hbeq]
      show List.Perm ((groupIds g0 ++ flatIds (delA t k))
          ++ groupIds ((List.lookup k t).getD []))
        (groupIds g0 ++ flatIds t)
      rw [List.append_assoc]
      exact List.Perm.append_left _ ih

end EventBus

namespace EventBus

theorem count_flatIds_setA (l : List (String × List Listener)) (k : String)
    (g' : List Listener) (x : String) :
    (flatIds (setA l k g')).count x + (groupIds ((List.lookup k l).getD [])).count x
      = (groupIds g').count x + (flatIds l).count x := by
  have h := (flatIds_setA_perm l k g').count_eq x
  rw [List.count_append, List.count_append] at h
  exact h

theorem count_flatIds_delA (l : List (String × List Listener)) (k : String)
    (x : String) :
    (flatIds (delA l k)).count x + (groupIds ((List.lookup k l).getD [])).count x
      = (flatIds l).count x := by
  have h := (flatIds_delA_perm l k).count_eq x
  rw [List.count_append] at h
  exact h

theorem length_flatIds_setA (l : List (String × List Listener)) (k : String)
    (g' : List Listener) :
    (flatIds (setA l k g')).length + (groupIds ((List.lookup k l).getD [])).length
      = (groupIds g').length + (flatIds l).length := by
  have h := (flatIds_setA_perm l k g').length_eq
  rw [List.length_append, List.length_append] at h
  exact h

theorem length_flatIds_delA (l : List (String × List Listener)) (k : String) :
    (flatIds (delA l k)).length + (groupIds ((List.lookup k l).getD [])).length
      = (flatIds l).length := by
  have h := (flatIds_delA_perm l k).length_eq
  rw [List.length_append] at h
  exact h

theorem count_groupIds_mergeSort (g : List Listener) (x : String) :
    (groupIds (g.mergeSort descPriority)).count x = (groupIds g).count x := by
  exact ((g.mergeSort_perm descPriority).map Listener.id).count_eq x

theorem count_allIds_on (bus : Bus) (ev : String) (c : Nat) (p : Int) (x : String) :
    (allIds (on' bus ev (some c) p).2).count x
      = (allIds bus).count x
        + ([("listener_" ++ Nat.repr (bus.counter + 1) : String)].count x) := by
  show (flatIds (setA bus.listeners ev
        (((List.lookup ev bus.listeners).getD []
          ++ [(⟨"listener_" ++ Nat.repr (bus.counter + 1), c, p⟩ : Listener)]).mergeSort
            descPriority))
      ++ flatIds bus.onceListeners).count x
    = (flatIds bus.listeners ++ flatIds bus.onceListeners).count x + _
  rw [List.count_append, List.count_append]
  have hset := count_flatIds_setA bus.listeners ev
    (((List.lookup ev bus.listeners).getD []
      ++ [(⟨"listener_" ++ Nat.repr (bus.counter + 1), c, p⟩ : Listener)]).mergeSort
        descPriority) x
  rw [count_groupIds_mergeSort] at hset
  have hsplit : (groupIds ((List.lookup ev bus.listeners).getD []
      ++ [(⟨"listener_" ++ Nat.repr (bus.counter + 1), c, p⟩ : Listener)])).count x
      = (groupIds ((List.lookup ev bus.listeners).getD [])).count x
        + ([("listener_" ++ Nat.repr (bus.counter + 1) : String)].count x) := by
    unfold groupIds
    rw [List.map_append, List.count_append]
    rfl
  rw [hsplit] at hset
  omega

theorem count_allIds_once (bus : Bus) (ev : String) (c : Nat) (p : Int) (x : String) :
    (allIds (once bus ev (some c) p).2).count x
      = (allIds bus).count x
        + ([("once_" ++ Nat.repr (bus.counter + 1) : String)].count x) := by
  show (flatIds bus.listeners
      ++ flatIds (setA bus.onceListeners ev
        (((List.lookup ev bus.onceListeners).getD []
          ++ [(⟨"once_" ++ Nat.repr (bus.counter + 1), c, p⟩ : Listener)]).mergeSort
            descPriority))).count x
    = (flatIds bus.listeners ++ flatIds bus.onceListeners).count x + _
  rw [List.count_append, List.count_append]
  have hset := count_flatIds_setA bus.onceListeners ev
    (((List.lookup ev bus.onceListeners).getD []
      ++ [(⟨"once_" ++ Nat.repr (bus.counter + 1), c, p⟩ : Listener)]).mergeSort
        descPriority) x
  rw [count_groupIds_mergeSort] at hset
  have hsplit : (groupIds ((List.lookup ev bus.onceListeners).getD []
      ++ [(⟨"once_" ++ Nat.repr (bus.counter + 1), c, p⟩ : Listener)])).count x
      = (groupIds ((List.lookup ev bus.onceListeners).getD [])).count x
        + ([("once_" ++ Nat.repr (bus.counter + 1) : String)].count x) := by
    unfold groupIds
    rw [List.map_append, List.count_append]
    rfl
  rw [hsplit] at hset
  omega

end EventBus

namespace EventBus

theorem length_filter_add_filter_not {α : Type} (p : α → Bool) (l : List α) :
    (l.filter p).length + (l.filter (fun a => ¬ p a)).length = l.length := by
  induction l with
  | nil => rfl
  | cons a t ih =>
    by_cases hp : p a
    · rw [List.filter_cons_of_pos hp, List.filter_cons_of_neg (by simp [hp])]
      simp only [List.length_cons]
      omega
    · rw [List.filter_cons_of_neg hp, List.filter_cons_of_pos (by simp [hp])]
      simp only [List.length_cons]
      omega

theorem count_offMap_le (l : List (String × List Listener)) (ev : String)
    (f : Listener → Bool) (x : String) :
    (flatIds (if (((List.lookup ev l).getD []).filter (fun li => ¬ f li)).length = 0
        then delA l ev
        else setA l ev (((List.lookup ev l).getD []).filter (fun li => ¬ f li)))).count x
      ≤ (flatIds l).count x := by
  by_cases hlen : (((List.lookup ev l).getD []).filter (fun li => ¬ f li)).length = 0
  · rw [if_pos hlen]
    have h := count_flatIds_delA l ev x
    omega
  · rw [if_neg hlen]
    have h := count_flatIds_setA l ev
      (((List.lookup ev l).getD []).filter (fun li => ¬ f li)) x
    have hle : (groupIds (((List.lookup ev l).getD []).filter (fun li => ¬ f li))).count x
        ≤ (groupIds ((List.lookup ev l).getD [])).count x :=
      ((List.filter_sublist _).map Listener.id).count_le x
    omega

theorem count_allIds_off_le (bus : Bus) (ev : String) (a : OffArg) (x : String) :
    (allIds (off bus ev a).1).count x ≤ (allIds bus).count x := by
  cases a with
  | undef =>
    by_cases hev : ev ≠ ""
    · simp only [off, if_pos hev, allIds]
      rw [List.count_append, List.count_append]
      have h1 := count_flatIds_delA bus.listeners ev x
      have h2 := count_flatIds_delA bus.onceListeners ev x
      omega
    · simp only [off, if_neg hev, allIds]
      simp [flatIds]
  | byId s =>
    simp only [off, allIds]
    rw [List.count_append, List.count_append]
    have h1 := count_offMap_le bus.listeners ev (offMatch (OffArg.byId s)) x
    have h2 := count_offMap_le bus.onceListeners ev (offMatch (OffArg.byId s)) x
    omega
  | byCb c =>
    simp only [off, allIds]
    rw [List.count_append, List.count_append]
    have h1 := count_offMap_le bus.listeners ev (offMatch (OffArg.byCb c)) x
    have h2 := count_offMap_le bus.onceListeners ev (offMatch (OffArg.byCb c)) x
    omega

end EventBus

namespace EventBus

theorem groupIds_length (g : List Listener) : (groupIds g).length = g.length := by
  simp [groupIds]

theorem length_offMap (l : List (String × List Listener)) (ev : String)
    (f : Listener → Bool) :
    (flatIds (if (((List.lookup ev l).getD []).filter (fun li => ¬ f li)).length = 0
        then delA l ev
        else setA l ev (((List.lookup ev l).getD []).filter (fun li => ¬ f li)))).length
      + (((List.lookup ev l).getD []).filter f).length
      = (flatIds l).length := by
  have hsplit := length_filter_add_filter_not f ((List.lookup ev l).getD [])
  by_cases hlen : (((List.lookup ev l).getD []).filter (fun li => ¬ f li)).length = 0
  · rw [if_pos hlen]
    have h := length_flatIds_delA l ev
    rw [groupIds_length] at h
    omega
  · rw [if_neg hlen]
    have h := length_flatIds_setA l ev
      (((List.lookup ev l).getD []).filter (fun li => ¬ f li))
    rw [groupIds_length, groupIds_length] at h
    omega

theorem count_lookup_le_flatIds (l : List (String × List Listener)) (ev x : String) :
    (groupIds ((List.lookup ev l).getD [])).count x ≤ (flatIds l).count x := by
  cases h : List.lookup ev l with
  | none => simp [groupIds]
  | some g =>
    have hmem : groupIds g ∈ l.map (fun p => groupIds p.2) :=
      List.mem_map.mpr ⟨(ev, g), ModuleLoader.mem_of_lookup_eq_some h, rfl⟩
    have hsub : List.Sublist (groupIds g) (flatIds l) :=
      List.sublist_flatten_of_mem hmem
    simpa using hsub.count_le x

theorem filter_byId_length (g : List Listener) (i : String) :
    (g.filter (offMatch (OffArg.byId i))).length = (groupIds g).count i := by
  induction g with
  | nil => rfl
  | cons a t ih =>
    by_cases hm : a.id = i
    · rw [List.filter_cons_of_pos (by simp [offMatch, hm])]
      have hc : (groupIds (a :: t)).count i = (groupIds t).count i + 1 := by
        simp [groupIds, List.count_cons, hm]
      rw [hc]
      simp [ih]
    · rw [List.filter_cons_of_neg (by simp [offMatch, hm])]
      have hc : (groupIds (a :: t)).count i = (groupIds t).count i := by
        simp [groupIds, List.count_cons, hm]
      rw [hc, ih]

theorem length_flatIds (l : List (String × List Listener)) :
    (flatIds l).length = (l.map (fun p => p.2.length)).sum := by
  induction l with
  | nil => rfl
  | cons a t ih =>
    simp only [flatIds, List.map_cons, List.flatten_cons, List.length_append,
      List.sum_cons, groupIds, List.length_map]
    simp only [flatIds, groupIds] at ih
    omega

theorem busSize_eq (bus : Bus) : busSize bus = (allIds bus).length := by
  unfold busSize allIds
  rw [List.length_append, length_flatIds, length_flatIds]

theorem busSize_off_byId (bus : Bus) (ev i : String)
    (hok : ∀ x, (allIds bus).count x ≤ 1) :
    busSize bus ≤ busSize (off bus ev (OffArg.byId i)).1 + 1 := by
  have hL := length_offMap bus.listeners ev (offMatch (OffArg.byId i))
  have hO := length_offMap bus.onceListeners ev (offMatch (OffArg.byId i))
  have hcL : (((List.lookup ev bus.listeners).getD []).filter
        (offMatch (OffArg.byId i))).length
      ≤ (flatIds bus.listeners).count i := by
    rw [filter_byId_length]
    exact count_lookup_le_flatIds bus.listeners ev i
  have hcO : (((List.lookup ev bus.onceListeners).getD []).filter
        (offMatch (OffArg.byId i))).length
      ≤ (flatIds bus.onceListeners).count i := by
    rw [filter_byId_length]
    exact count_lookup_le_flatIds bus.onceListeners ev i
  have hcount : (flatIds bus.listeners).count i
      + (flatIds bus.onceListeners).count i ≤ 1 := by
    have h := hok i
    unfold allIds at h
    rw [List.count_append] at h
    exact h
  rw [busSize_eq, busSize_eq]
  show (allIds bus).length ≤ (allIds (off bus ev (OffArg.byId i)).1).length + 1
  simp only [off, allIds]
  rw [List.length_append, List.length_append]
  omega

end EventBus

namespace EventBus

theorem count_allIds_zero_of_fresh {bus : Bus} (hok : BusIdsOk bus) {m : Nat}
    (hm : bus.counter < m) {s : String}
    (hs : s = "listener_" ++ Nat.repr m ∨ s = "once_" ++ Nat.repr m) :
    (allIds bus).count s = 0 := by
  by_contra h
  have hmem : s ∈ allIds bus := List.count_pos_iff.mp (Nat.pos_of_ne_zero h)
  rcases hok.2 s hmem with ⟨n, hn, hf⟩
  rcases hs with hs | hs <;> rcases hf with hf | hf
  · have := listenerId_inj (hf.symm.trans hs)
    omega
  · exact absurd (hf.symm.trans hs).symm (listenerId_ne_onceId m n)
  · exact absurd (hf.symm.trans hs) (listenerId_ne_onceId n m)
  · have := onceId_inj (hf.symm.trans hs)
    omega

theorem BusIdsOk_on (bus : Bus) (ev : String) (cb : Option Nat) (p : Int)
    (hok : BusIdsOk bus) : BusIdsOk (on' bus ev cb p).2 := by
  cases cb with
  | none => exact hok
  | some c =>
    have hcounter : (on' bus ev (some c) p).2.counter = bus.counter + 1 := rfl
    constructor
    · intro x
      have hcnt := count_allIds_on bus ev c p x
      by_cases hx : x = "listener_" ++ Nat.repr (bus.counter + 1)
      · have h0 : (allIds bus).count x = 0 := by
          exact count_allIds_zero_of_fresh hok (Nat.lt_succ_self bus.counter)
            (Or.inl hx)
        rw [hcnt, h0, hx]
        simp
      · have h1 := hok.1 x
        have h2 : ([("listener_" ++ Nat.repr (bus.counter + 1) : String)].count x) = 0 := by
          simp [List.count_cons, hx]
        omega
    · intro id hid
      have hpos : 0 < (allIds (on' bus ev (some c) p).2).count id :=
        List.count_pos_iff.mpr hid
      have hcnt := count_allIds_on bus ev c p id
      by_cases hx : id = "listener_" ++ Nat.repr (bus.counter + 1)
      · exact ⟨bus.counter + 1, by omega, Or.inl hx⟩
      · have h2 : ([("listener_" ++ Nat.repr (bus.counter + 1) : String)].count id) = 0 := by
          simp [List.count_cons, hx]
        have hold : 0 < (allIds bus).count id := by omega
        rcases hok.2 id (List.count_pos_iff.mp hold) with ⟨n, hn, hf⟩
        exact ⟨n, by omega, hf⟩

theorem BusIdsOk_once (bus : Bus) (ev : String) (cb : Option Nat) (p : Int)
    (hok : BusIdsOk bus) : BusIdsOk (once bus ev cb p).2 := by
  cases cb with
  | none => exact hok
  | some c =>
    have hcounter : (once bus ev (some c) p).2.counter = bus.counter + 1 := rfl
    constructor
    · intro x
      have hcnt := count_allIds_once bus ev c p x
      by_cases hx : x = "once_" ++ Nat.repr (bus.counter + 1)
      · have h0 : (allIds bus).count x = 0 := by
          exact count_allIds_zero_of_fresh hok (Nat.lt_succ_self bus.counter)
            (Or.inr hx)
        rw [hcnt, h0, hx]
        simp
      · have h1 := hok.1 x
        have h2 : ([("once_" ++ Nat.repr (bus.counter + 1) : String)].count x) = 0 := by
          simp [List.count_cons, hx]
        omega
    · intro id hid
      have hpos : 0 < (allIds (once bus ev (some c) p).2).count id :=
        List.count_pos_iff.mpr hid
      have hcnt := count_allIds_once bus ev c p id
      by_cases hx : id = "once_" ++ Nat.repr (bus.counter + 1)
      · exact ⟨bus.counter + 1, by omega, Or.inr hx⟩
      · have h2 : ([("once_" ++ Nat.repr (bus.counter + 1) : String)].count id) = 0 := by
          simp [List.count_cons, hx]
        have hold : 0 < (allIds bus).count id := by omega
        rcases hok.2 id (List.count_pos_iff.mp hold) with ⟨n, hn, hf⟩
        exact ⟨n, by omega, hf⟩

theorem BusIdsOk_off (bus : Bus) (ev : String) (a : OffArg)
    (hok : BusIdsOk bus) : BusIdsOk (off bus ev a).1 := by
  constructor
  · intro x
    exact le_trans (count_allIds_off_le bus ev a x) (hok.1 x)
  · intro id hid
    have hpos : 0 < (allIds (off bus ev a).1).count id := List.count_pos_iff.mpr hid
    have hle := count_allIds_off_le bus ev a id
    have hold : 0 < (allIds bus).count id := by omega
    rcases hok.2 id (List.count_pos_iff.mp hold) with ⟨n, hn, hf⟩
    refine ⟨n, ?_, hf⟩
    rw [off_counter]
    exact hn

theorem BusIdsOk_emitLoop (env : Nat → List JVal → Except Unit JVal) (ev : String)
    (d : JVal) : ∀ (L : List (Listener × Bool × Bool)) (bus : Bus), BusIdsOk bus →
    BusIdsOk (emitLoop env ev d L bus).2.1 := by
  intro L
  induction L with
  | nil => intro bus h; exact h
  | cons p rest ih =>
    intro bus h
    obtain ⟨l, isOnce, isWild⟩ := p
    show BusIdsOk (emitLoop env ev d rest
      (if isOnce then (off bus ev (OffArg.byId l.id)).1 else bus)).2.1
    apply ih
    cases isOnce with
    | true => exact BusIdsOk_off bus ev (OffArg.byId l.id) h
    | false => exact h

theorem BusIdsOk_emit (env : Nat → List JVal → Except Unit JVal) (bus : Bus)
    (ev : String) (d : JVal) (hok : BusIdsOk bus) :
    BusIdsOk (emit env bus ev d).2.1 :=
  BusIdsOk_emitLoop env ev d (snapshot bus ev).reverse bus hok

theorem BusIdsOk_emptyBus : BusIdsOk emptyBus := by
  constructor
  · intro x
    simp [allIds, flatIds, emptyBus]
  · intro id h
    simp [allIds, flatIds, emptyBus] at h

theorem BusIdsOk_runOps (env : Nat → List JVal → Except Unit JVal) :
    ∀ (ops : List BusOp) (bus : Bus), BusIdsOk bus →
    BusIdsOk (runOps env ops bus).1 := by
  intro ops
  induction ops with
  | nil => intro bus h; exact h
  | cons op rest ih =>
    intro bus h
    cases op with
    | on' ev cb p => exact ih _ (BusIdsOk_on bus ev cb p h)
    | once ev cb p => exact ih _ (BusIdsOk_once bus ev cb p h)
    | off ev a => exact ih _ (BusIdsOk_off bus ev a h)
    | emit ev d => exact ih _ (BusIdsOk_emit env bus ev d h)

end EventBus

namespace EventBus

/-- C10: Every listener id returned by the bus's on and once over any
sequence of bus operations started from the empty bus is distinct from every
id previously returned by either function (the ids embed a strictly
increasing counter); and off(event, id) removes at most one listener entry
from the resulting bus: its size shrinks by at most one. -/
theorem C10_ids_distinct_off_removes_at_most_one
    (env : Nat → List JVal → Except Unit JVal) (ops : List BusOp)
    (ev i : String) :
    ((runOps env ops emptyBus).2).Pairwise (· ≠ ·)
    ∧ busSize (runOps env ops emptyBus).1
        ≤ busSize (off (runOps env ops emptyBus).1 ev (OffArg.byId i)).1 + 1 := by
  refine ⟨runOps_ids_pairwise env ops emptyBus, ?_⟩
  have hok : BusIdsOk (runOps env ops emptyBus).1 :=
    BusIdsOk_runOps env ops emptyBus BusIdsOk_emptyBus
  exact busSize_off_byId (runOps env ops emptyBus).1 ev i hok.1

end EventBus


namespace ModuleLoader

end ModuleLoader

namespace ModuleLoader

theorem depEdge_of_lookup {α : Type} {reg : Registry α} {a : String} {e : ModEntry α}
    (hm : List.lookup a reg.modules = some e) {b : String} (hb : b ∈ e.deps) :
    DepEdge reg a b := by
  unfold DepEdge depsOf
  rw [hm]
  exact hb

theorem depEdge_iff_of_lookup {α : Type} {reg : Registry α} {a : String} {e : ModEntry α}
    (hm : List.lookup a reg.modules = some e) (b : String) :
    DepEdge reg a b ↔ b ∈ e.deps := by
  unfold DepEdge depsOf
  rw [hm]

theorem not_depEdge_of_missing {α : Type} {reg : Registry α} {a : String}
    (hm : List.lookup a reg.modules = none) (b : String) : ¬ DepEdge reg a b := by
  unfold DepEdge depsOf
  rw [hm]
  simp

theorem depEdge_lookup_isSome {α : Type} {reg : Registry α} {a b : String}
    (h : DepEdge reg a b) : (List.lookup a reg.modules).isSome := by
  unfold DepEdge depsOf at h
  cases hm : List.lookup a reg.modules with
  | none => rw [hm] at h; simp at h
  | some e => rfl

theorem rank_lt_of_depEdge {α : Type} {reg : Registry α} {rank : String → Nat}
    (hr : RankOk reg rank) {a b : String} (h : DepEdge reg a b) : rank b < rank a := by
  unfold DepEdge depsOf at h
  cases hm : List.lookup a reg.modules with
  | none => rw [hm] at h; simp at h
  | some e =>
    rw [hm] at h
    exact hr (a, e) (mem_of_lookup_eq_some hm) b h

theorem rank_lt_of_reachTG {α : Type} {reg : Registry α} {rank : String → Nat}
    (hr : RankOk reg rank) {a b : String} (h : ReachTG reg a b) : rank b < rank a := by
  induction h with
  | single he => exact rank_lt_of_depEdge hr he
  | tail _ he ih => exact lt_trans (rank_lt_of_depEdge hr he) ih

theorem not_reachTG_self {α : Type} {reg : Registry α} {rank : String → Nat}
    (hr : RankOk reg rank) (a : String) : ¬ ReachTG reg a a := by
  intro h
  exact lt_irrefl _ (rank_lt_of_reachTG hr h)

theorem ordAll_nil {α : Type} (reg : Registry α) : OrdAll reg [] := by
  intro l1 b l2 h
  cases l1 <;> simp at h

theorem append_singleton_eq_split {L l1 l2 : List String} {d b : String}
    (h : L ++ [d] = l1 ++ b :: l2) :
    (l1 = L ∧ b = d ∧ l2 = []) ∨ ∃ l2', l2 = l2' ++ [d] ∧ L = l1 ++ b :: l2' := by
  rcases l2.eq_nil_or_concat with rfl | ⟨l2', e, rfl⟩
  · left
    have h2 := List.append_inj' h (by rfl)
    have hbd : d = b := by simpa using h2.2
    exact ⟨h2.1.symm, hbd.symm, rfl⟩
  · right
    simp only [List.concat_eq_append] at h
    have h2 : L ++ [d] = (l1 ++ b :: l2') ++ [e] := by
      rw [h]
      simp [List.append_assoc]
    have h3 := List.append_inj' h2 (by rfl)
    have he : e = d := by
      have hde : d = e := by simpa using h3.2
      exact hde.symm
    exact ⟨l2', by rw [he, List.concat_eq_append], h3.1⟩


theorem ordAll_append_singleton {α : Type} {reg : Registry α} {L : List String}
    {d : String} (h : OrdAll reg L) (hd : ∀ x, DepEdge reg d x → x ∈ L) :
    OrdAll reg (L ++ [d]) := by
  intro l1 b l2 heq x hx
  rcases append_singleton_eq_split heq with ⟨rfl, rfl, rfl⟩ | ⟨l2', rfl, hL⟩
  · exact hd x hx
  · exact h l1 b l2' hL x hx

theorem mem_visUnion {w v : List String} {x : String} :
    x ∈ visUnion w v ↔ x ∈ w ∨ x ∈ v := by
  simp only [visUnion, List.mem_append, List.mem_filter, decide_not,
    Bool.not_eq_true', decide_eq_false_iff_not, contains_eq_mem]
  constructor
  · rintro (hw | ⟨hv, _⟩)
    · exact Or.inl hw
    · exact Or.inr hv
  · intro h
    by_cases hw : x ∈ w
    · exact Or.inl hw
    · rcases h with h | h
      · exact absurd h hw
      · exact Or.inr ⟨h, hw⟩

end ModuleLoader

namespace ModuleLoader

theorem reachTG_head_cases {α : Type} {reg : Registry α} {a c : String}
    (h : ReachTG reg a c) :
    DepEdge reg a c ∨ ∃ b, DepEdge reg a b ∧ ReachTG reg b c := by
  have h' : Relation.TransGen (DepEdge reg) a c := h
  clear h
  induction h' with
  | single he => exact Or.inl he
  | tail _ he ih =>
    rcases ih with h1 | ⟨b, h1, h2⟩
    · exact Or.inr ⟨_, h1, Relation.TransGen.single he⟩
    · exact Or.inr ⟨b, h1, Relation.TransGen.tail h2 he⟩

theorem ordAll_reach {α : Type} {reg : Registry α} {rank : String → Nat}
    (hr : RankOk reg rank) {L : List String} (h : OrdAll reg L) :
    ∀ l1 b l2, L = l1 ++ b :: l2 → ∀ x, ReachTG reg b x → x ∈ l1 := by
  suffices hs : ∀ n l1 b l2, rank b ≤ n → L = l1 ++ b :: l2 →
      ∀ x, ReachTG reg b x → x ∈ l1 by
    intro l1 b l2 heq x hx
    exact hs (rank b) l1 b l2 le_rfl heq x hx
  intro n
  induction n with
  | zero =>
    intro l1 b l2 hrk heq x hx
    rcases reachTG_head_cases hx with he | ⟨c, he, _⟩
    · exact h l1 b l2 heq x he
    · have := rank_lt_of_depEdge hr he
      omega
  | succ n ihn =>
    intro l1 b l2 hrk heq x hx
    rcases reachTG_head_cases hx with he | ⟨c, he, hcx⟩
    · exact h l1 b l2 heq x he
    · have hc1 : c ∈ l1 := h l1 b l2 heq c he
      rcases List.append_of_mem hc1 with ⟨p, s, rfl⟩
      have heq2 : L = p ++ c :: (s ++ b :: l2) := by
        rw [heq]
        simp [List.append_assoc]
      have hrkc : rank c ≤ n := by
        have := rank_lt_of_depEdge hr he
        omega
      have hxp := ihn p c (s ++ b :: l2) hrkc heq2 x hcx
      exact List.mem_append_left _ hxp

theorem resolveOne_visited {α : Type} (reg : Registry α) {name : String}
    {V : List String} (h : V.contains name = true) :
    resolveOne reg name V = ([], V, [RWarn.cycle name]) := by
  simp only [resolveOne, h]
  rfl

theorem resolveOne_missing {α : Type} (reg : Registry α) {name : String}
    {V : List String} (h1 : V.contains name = false)
    (h2 : List.lookup name reg.modules = none) :
    resolveOne reg name V = ([], V, [RWarn.missing name]) := by
  simp only [resolveOne, h1, Bool.false_eq_true, if_false]
  split
  · rfl
  · rename_i e he
    rw [h2] at he
    cases he

theorem resolveOne_found {α : Type} (reg : Registry α) {name : String}
    {V : List String} {e : ModEntry α} (h1 : V.contains name = false)
    (h2 : List.lookup name reg.modules = some e) :
    resolveOne reg name V = resolveList reg e.deps (name :: V) [] := by
  simp only [resolveOne, h1, Bool.false_eq_true, if_false]
  split
  · rename_i he
    rw [h2] at he
    cases he
  · rename_i e2 he
    rw [h2] at he
    cases he
    rfl

theorem resolveList_nil {α : Type} (reg : Registry α) (V R : List String) :
    resolveList reg [] V R = (R, V, []) := by
  simp only [resolveList]

theorem resolveList_cons_seen {α : Type} (reg : Registry α) {d : String}
    {V : List String} (ds : List String) (R : List String)
    (h : V.contains d = true) :
    resolveList reg (d :: ds) V R
      = resolveList reg ds V (if R.contains d then R else R ++ [d]) := by
  simp only [resolveList, h, eq_self_iff_true, if_true, List.nil_append, Prod.mk.eta]

theorem resolveList_cons_new_1 {α : Type} (reg : Registry α) {d : String}
    {V : List String} (ds : List String) (R : List String)
    (h : V.contains d = false) :
    (resolveList reg (d :: ds) V R).1
      = (resolveList reg ds (visUnion (resolveOne reg d V).2.1 V)
          (if (R ++ (resolveOne reg d V).1).contains d then R ++ (resolveOne reg d V).1
           else (R ++ (resolveOne reg d V).1) ++ [d])).1 := by
  simp only [resolveList, h, Bool.false_eq_true, if_false]

theorem resolveList_cons_new_2 {α : Type} (reg : Registry α) {d : String}
    {V : List String} (ds : List String) (R : List String)
    (h : V.contains d = false) :
    (resolveList reg (d :: ds) V R).2.1
      = (resolveList reg ds (visUnion (resolveOne reg d V).2.1 V)
          (if (R ++ (resolveOne reg d V).1).contains d then R ++ (resolveOne reg d V).1
           else (R ++ (resolveOne reg d V).1) ++ [d])).2.1 := by
  simp only [resolveList, h, Bool.false_eq_true, if_false]

end ModuleLoader

namespace ModuleLoader

theorem LoopOut_of_eq {α : Type} {reg : Registry α} {S V G R deps : List String}
    {a b : List String × List String × List RWarn}
    (h1 : a.1 = b.1) (h2 : a.2.1 = b.2.1)
    (hb : LoopOut reg S V G R deps b) : LoopOut reg S V G R deps a := by
  refine ⟨?_, ?_, ?_, ?_, ?_, ?_, ?_, ?_, ?_, ?_, ?_⟩ <;> (try rw [h1]) <;> (try rw [h2])
  · exact hb.mono
  · exact hb.ext
  · exact hb.depsIn
  · exact hb.depsVis
  · exact hb.newSound
  · exact hb.finPush
  · exact hb.finDeps
  · exact hb.visClosed
  · exact hb.memSound
  · exact hb.memComplete
  · exact hb.ordG

end ModuleLoader

namespace ModuleLoader

theorem loopClaim {α : Type} (reg : Registry α) (rank : String → Nat)
    (hr : RankOk reg rank) (k : Nat)
    (hOne : ∀ (name : String) (V S G : List String), unvisited reg V ≤ k →
      OneIn reg S V G name → OneOut reg S V G name (resolveOne reg name V)) :
    ∀ (deps : List String) (V : List String), unvisited reg V ≤ k →
      ∀ (S G R : List String), LoopIn reg S V G R deps →
      LoopOut reg S V G R deps (resolveList reg deps V R) := by
  intro deps
  induction deps with
  | nil =>
    intro V hk S G R hin
    rw [resolveList_nil]
    refine ⟨fun v hv => hv, ⟨[], (List.append_nil R).symm⟩,
      fun d hd => absurd hd (List.not_mem_nil d),
      fun d hd => absurd hd (List.not_mem_nil d),
      fun v hv hnv => absurd hv hnv,
      hin.finPush, hin.finDeps, hin.visClosed,
      fun x hx => Or.inl hx,
      fun b hb hnb => absurd hb hnb,
      hin.ordG⟩
  | cons d ds ih =>
    intro V hk S G R hin
    have hdS : d ∉ S := by
      intro hdS
      exact not_reachTG_self hr d (hin.depsReach d (List.mem_cons_self d ds) d hdS)
    by_cases hd : d ∈ V
    · -- the dep is already visited: no recursion, only the push step
      have hdc : V.contains d = true := (contains_eq_mem V d).mpr hd
      rw [resolveList_cons_seen reg ds R hdc]
      have hdDeps : ∀ x, DepEdge reg d x → x ∈ G ++ R :=
        fun x hx => (hin.finDeps d hd hdS x hx).1
      have hfacts : d ∈ (if R.contains d then R else R ++ [d])
          ∧ (∀ x, x ∈ G ++ R → x ∈ G ++ (if R.contains d then R else R ++ [d]))
          ∧ (∃ t0, (if R.contains d then R else R ++ [d]) = R ++ t0)
          ∧ OrdAll reg (G ++ (if R.contains d then R else R ++ [d]))
          ∧ (∀ x ∈ (if R.contains d then R else R ++ [d]), x ∈ R ∨ x = d) := by
        by_cases hR : R.contains d = true
        · rw [if_pos hR]
          exact ⟨(contains_eq_mem R d).mp hR, fun x hx => hx,
            ⟨[], (List.append_nil R).symm⟩, hin.ordG, fun x hx => Or.inl hx⟩
        · rw [if_neg hR]
          have hord : OrdAll reg ((G ++ R) ++ [d]) :=
            ordAll_append_singleton hin.ordG hdDeps
          rw [List.append_assoc] at hord
          refine ⟨List.mem_append_right R (List.mem_singleton.mpr rfl),
            fun x hx => ?_, ⟨[d], rfl⟩, hord, fun x hx => ?_⟩
          · rcases List.mem_append.mp hx with h1 | h1
            · exact List.mem_append_left _ h1
            · exact List.mem_append_right _ (List.mem_append_left _ h1)
          · rcases List.mem_append.mp hx with h1 | h1
            · exact Or.inl h1
            · exact Or.inr (List.mem_singleton.mp h1)
      obtain ⟨hf1, hf2, ⟨t0, hf3⟩, hf4, hf5⟩ := hfacts
      have hloop : LoopIn reg S V G (if R.contains d then R else R ++ [d]) ds :=
        ⟨hin.stackSub,
         fun d' hd' => hin.depsReach d' (List.mem_cons_of_mem d hd'),
         fun v hv hvS => hf2 v (hin.finPush v hv hvS),
         fun v hv hvS x hx =>
           ⟨hf2 x (hin.finDeps v hv hvS x hx).1, (hin.finDeps v hv hvS x hx).2⟩,
         hin.visClosed, hf4⟩
      have ro := ih V hk S G (if R.contains d then R else R ++ [d]) hloop
      obtain ⟨t, ht⟩ := ro.ext
      refine ⟨ro.mono, ?_, ?_, ?_, ?_, ro.finPush, ro.finDeps, ro.visClosed,
        ?_, ro.memComplete, ro.ordG⟩
      · exact ⟨t0 ++ t, by rw [ht, hf3, List.append_assoc]⟩
      · intro d' hd'
        rcases List.mem_cons.mp hd' with rfl | hd'
        · rw [ht]
          exact List.mem_append_left _ hf1
        · exact ro.depsIn d' hd'
      · intro d' hd' hsome
        rcases List.mem_cons.mp hd' with rfl | hd'
        · exact ro.mono d' hd
        · exact ro.depsVis d' hd' hsome
      · intro v hv hnv
        rcases ro.newSound v hv hnv with ⟨d', hd', hp⟩
        exact ⟨d', List.mem_cons_of_mem d hd', hp⟩
      · intro x hx
        rcases ro.memSound x hx with h1 | h1 | h1
        · rcases hf5 x h1 with h2 | rfl
          · exact Or.inl h2
          · exact Or.inr (Or.inl (List.mem_cons_self x ds))
        · exact Or.inr (Or.inl (List.mem_cons_of_mem d h1))
        · exact Or.inr (Or.inr h1)
    · -- the dep is fresh: recurse into it, then the push step
      have hdc : V.contains d = false := by
        cases hc : V.contains d with
        | false => rfl
        | true => exact absurd ((contains_eq_mem V d).mp hc) hd
      refine LoopOut_of_eq (resolveList_cons_new_1 reg ds R hdc)
        (resolveList_cons_new_2 reg ds R hdc) ?_
      have qo := hOne d V S (G ++ R) hk
        ⟨hd, hin.stackSub, fun s hs => hin.depsReach d (List.mem_cons_self d ds) s hs,
         hin.finPush, hin.finDeps, hin.visClosed, hin.ordG⟩
      have hV' : ∀ x, x ∈ visUnion (resolveOne reg d V).2.1 V
          ↔ x ∈ (resolveOne reg d V).2.1 := by
        intro x
        rw [mem_visUnion]
        exact ⟨fun h => h.elim id (qo.mono x), Or.inl⟩
      have hkk : unvisited reg (visUnion (resolveOne reg d V).2.1 V) ≤ k :=
        le_trans (unvisited_visUnion_le reg _ V) hk
      have hdDeps : ∀ x, DepEdge reg d x → x ∈ (resolveOne reg d V).1 := by
        intro x hx
        rcases qo.self with ⟨hnone, _, _⟩ | hdvis
        · exact absurd hx (not_depEdge_of_missing hnone x)
        · exact qo.memComplete d hdvis hd x hx
      have hstep : OrdAll reg (G ++ (R ++ (resolveOne reg d V).1)) := by
        have h0 := qo.ordG
        rw [List.append_assoc] at h0
        exact h0
      have hfacts : d ∈ (if (R ++ (resolveOne reg d V).1).contains d
            then R ++ (resolveOne reg d V).1 else (R ++ (resolveOne reg d V).1) ++ [d])
          ∧ (∀ x, x ∈ G ++ (R ++ (resolveOne reg d V).1) →
              x ∈ G ++ (if (R ++ (resolveOne reg d V).1).contains d
                then R ++ (resolveOne reg d V).1
                else (R ++ (resolveOne reg d V).1) ++ [d]))
          ∧ (∃ t0, (if (R ++ (resolveOne reg d V).1).contains d
                then R ++ (resolveOne reg d V).1
                else (R ++ (resolveOne reg d V).1) ++ [d])
              = (R ++ (resolveOne reg d V).1) ++ t0)
          ∧ OrdAll reg (G ++ (if (R ++ (resolveOne reg d V).1).contains d
                then R ++ (resolveOne reg d V).1
                else (R ++ (resolveOne reg d V).1) ++ [d]))
          ∧ (∀ x ∈ (if (R ++ (resolveOne reg d V).1).contains d
                then R ++ (resolveOne reg d V).1
                else (R ++ (resolveOne reg d V).1) ++ [d]),
              x ∈ R ++ (resolveOne reg d V).1 ∨ x = d) := by
        by_cases hR : (R ++ (resolveOne reg d V).1).contains d = true
        · rw [if_pos hR]
          exact ⟨(contains_eq_mem _ d).mp hR, fun x hx => hx,
            ⟨[], (List.append_nil _).symm⟩, hstep, fun x hx => Or.inl hx⟩
        · rw [if_neg hR]
          have hord : OrdAll reg ((G ++ (R ++ (resolveOne reg d V).1)) ++ [d]) := by
            refine ordAll_append_singleton hstep ?_
            intro x hx
            exact List.mem_append_right _ (List.mem_append_right _ (hdDeps x hx))
          rw [List.append_assoc] at hord
          refine ⟨List.mem_append_right _ (List.mem_singleton.mpr rfl),
            fun x hx => ?_, ⟨[d], rfl⟩, hord, fun x hx => ?_⟩
          · rcases List.mem_append.mp hx with h1 | h1
            · exact List.mem_append_left _ h1
            · exact List.mem_append_right _ (List.mem_append_left _ h1)
          · rcases List.mem_append.mp hx with h1 | h1
            · exact Or.inl h1
            · exact Or.inr (List.mem_singleton.mp h1)
      obtain ⟨hf1, hf2, ⟨t0, hf3⟩, hf4, hf5⟩ := hfacts
      have hloop : LoopIn reg S (visUnion (resolveOne reg d V).2.1 V) G
          (if (R ++ (resolveOne reg d V).1).contains d
            then R ++ (resolveOne reg d V).1
            else (R ++ (resolveOne reg d V).1) ++ [d]) ds := by
        refine ⟨?_, ?_, ?_, ?_, ?_, hf4⟩
        · exact fun s hs => (hV' s).mpr (qo.mono s (hin.stackSub s hs))
        · exact fun d' hd' => hin.depsReach d' (List.mem_cons_of_mem d hd')
        · intro v hv hvS
          have hvq := (hV' v).mp hv
          by_cases hvd : v = d
          · subst hvd
            exact List.mem_append_right _ hf1
          · have h1 := qo.finPush v hvq hvS hvd
            rw [List.append_assoc] at h1
            exact hf2 v h1
        · intro v hv hvS x hx
          have hvq := (hV' v).mp hv
          have h1 := qo.finDeps v hvq hvS x hx
          have h2 := h1.1
          rw [List.append_assoc] at h2
          exact ⟨hf2 x h2, h1.2⟩
        · intro v hv hvS x hx hsome
          exact (hV' x).mpr (qo.visClosed v ((hV' v).mp hv) hvS x hx hsome)
      have ro := ih (visUnion (resolveOne reg d V).2.1 V) hkk S G
        (if (R ++ (resolveOne reg d V).1).contains d
          then R ++ (resolveOne reg d V).1
          else (R ++ (resolveOne reg d V).1) ++ [d]) hloop
      obtain ⟨t, ht⟩ := ro.ext
      refine ⟨?_, ?_, ?_, ?_, ?_, ro.finPush, ro.finDeps, ro.visClosed, ?_, ?_, ro.ordG⟩
      · exact fun v hv => ro.mono v ((hV' v).mpr (qo.mono v hv))
      · refine ⟨(resolveOne reg d V).1 ++ t0 ++ t, ?_⟩
        rw [ht, hf3]
        simp [List.append_assoc]
      · intro d' hd'
        rcases List.mem_cons.mp hd' with rfl | hd'
        · rw [ht]
          exact List.mem_append_left _ hf1
        · exact ro.depsIn d' hd'
      · intro d' hd' hsome
        rcases List.mem_cons.mp hd' with rfl | hd'
        · rcases qo.self with ⟨hnone, _, _⟩ | hdvis
          · rw [hnone] at hsome
            cases hsome
          · exact ro.mono d' ((hV' d').mpr hdvis)
        · exact ro.depsVis d' hd' hsome
      · intro v hv hnv
        by_cases hvV' : v ∈ visUnion (resolveOne reg d V).2.1 V
        · have hvq := (hV' v).mp hvV'
          rcases qo.newSound v hvq hnv with rfl | hp
          · exact ⟨v, List.mem_cons_self v ds, Or.inl rfl⟩
          · exact ⟨d, List.mem_cons_self d ds, Or.inr hp⟩
        · rcases ro.newSound v hv hvV' with ⟨d', hd', hp⟩
          exact ⟨d', List.mem_cons_of_mem d hd', hp⟩
      · intro x hx
        rcases ro.memSound x hx with h1 | h1 | h1
        · rcases hf5 x h1 with h2 | rfl
          · rcases List.mem_append.mp h2 with h3 | h3
            · exact Or.inl h3
            · rcases qo.memSound x h3 with ⟨b, hbq, hbV, he⟩
              exact Or.inr (Or.inr ⟨b, ro.mono b ((hV' b).mpr hbq), hbV, he⟩)
          · exact Or.inr (Or.inl (List.mem_cons_self x ds))
        · exact Or.inr (Or.inl (List.mem_cons_of_mem d h1))
        · rcases h1 with ⟨b, hb, hbV', he⟩
          refine Or.inr (Or.inr ⟨b, hb, fun hbV => hbV' ((hV' b).mpr (qo.mono b hbV)), he⟩)
      · intro b hb hbV x hx
        by_cases hbV' : b ∈ visUnion (resolveOne reg d V).2.1 V
        · have h1 := qo.memComplete b ((hV' b).mp hbV') hbV x hx
          rw [ht, hf3]
          exact List.mem_append_left _ (List.mem_append_left _
            (List.mem_append_right _ h1))
        · exact ro.memComplete b hb hbV' x hx

end ModuleLoader

namespace ModuleLoader

theorem oneClaim {α : Type} (reg : Registry α) (rank : String → Nat)
    (hr : RankOk reg rank) :
    ∀ (k : Nat) (name : String) (V S G : List String), unvisited reg V ≤ k →
      OneIn reg S V G name → OneOut reg S V G name (resolveOne reg name V) := by
  intro k
  induction k using Nat.strong_induction_on with
  | _ k ihk =>
  intro name V S G hk hin
  have hnc : V.contains name = false := by
    cases hc : V.contains name with
    | false => rfl
    | true => exact absurd ((contains_eq_mem V name).mp hc) hin.notVis
  cases hm : List.lookup name reg.modules with
  | none =>
    rw [resolveOne_missing reg hnc hm]
    refine ⟨fun v hv => hv, Or.inl ⟨hm, rfl, rfl⟩,
      fun v hv hnv => absurd hv hnv, ?_, ?_, hin.visClosed,
      fun x hx => absurd hx (List.not_mem_nil x),
      fun b hb hnb => absurd hb hnb, ?_⟩
    · intro v hv hvS _
      rw [List.append_nil]
      exact hin.finPush v hv hvS
    · intro v hv hvS x hx
      rw [List.append_nil]
      exact hin.finDeps v hv hvS x hx
    · rw [List.append_nil]
      exact hin.ordG
  | some e =>
    rw [resolveOne_found reg hnc hm]
    have hkv : unvisited reg (name :: V) < unvisited reg V :=
      unvisited_cons_lt reg V name (by rw [hm]; rfl) (by rw [hnc]; simp)
    have hk'lt : unvisited reg (name :: V) < k := lt_of_lt_of_le hkv hk
    have hOne' : ∀ (name' : String) (V' S' G' : List String),
        unvisited reg V' ≤ unvisited reg (name :: V) →
        OneIn reg S' V' G' name' →
        OneOut reg S' V' G' name' (resolveOne reg name' V') :=
      fun name' V' S' G' h1 h2 =>
        ihk (unvisited reg (name :: V)) hk'lt name' V' S' G' h1 h2
    have hedge : ∀ d ∈ e.deps, DepEdge reg name d :=
      fun d hd => depEdge_of_lookup hm hd
    have hloopin : LoopIn reg (name :: S) (name :: V) G [] e.deps := by
      refine ⟨?_, ?_, ?_, ?_, ?_, ?_⟩
      · intro s hs
        rcases List.mem_cons.mp hs with rfl | hs
        · exact List.mem_cons_self s V
        · exact List.mem_cons_of_mem name (hin.stackSub s hs)
      · intro d hd s hs
        rcases List.mem_cons.mp hs with rfl | hs
        · exact Relation.TransGen.single (hedge d hd)
        · exact Relation.TransGen.tail (hin.stackReach s hs) (hedge d hd)
      · intro v hv hvS
        rcases List.mem_cons.mp hv with rfl | hv
        · exact absurd (List.mem_cons_self v S) hvS
        · rw [List.append_nil]
          exact hin.finPush v hv (fun hvs => hvS (List.mem_cons_of_mem name hvs))
      · intro v hv hvS x hx
        rcases List.mem_cons.mp hv with rfl | hv
        · exact absurd (List.mem_cons_self v S) hvS
        · have hvs : v ∉ S := fun hvs => hvS (List.mem_cons_of_mem name hvs)
          have h1 := hin.finDeps v hv hvs x hx
          have hxn : x ≠ name := by
            intro hxn
            rw [hxn] at hx
            exact hin.notVis (hin.visClosed v hv hvs name hx (by rw [hm]; rfl))
          refine ⟨by rw [List.append_nil]; exact h1.1, ?_⟩
          intro hxs
          rcases List.mem_cons.mp hxs with h2 | h2
          · exact hxn h2
          · exact h1.2 h2
      · intro v hv hvS x hx hsome
        rcases List.mem_cons.mp hv with rfl | hv
        · exact absurd (List.mem_cons_self v S) hvS
        · exact List.mem_cons_of_mem name
            (hin.visClosed v hv (fun hvs => hvS (List.mem_cons_of_mem name hvs)) x hx hsome)
      · rw [List.append_nil]
        exact hin.ordG
    have lo := loopClaim reg rank hr (unvisited reg (name :: V)) hOne' e.deps
      (name :: V) le_rfl (name :: S) G [] hloopin
    have hnamevis : name ∈ (resolveList reg e.deps (name :: V) []).2.1 :=
      lo.mono name (List.mem_cons_self name V)
    refine ⟨?_, Or.inr hnamevis, ?_, ?_, ?_, ?_, ?_, ?_, lo.ordG⟩
    · exact fun v hv => lo.mono v (List.mem_cons_of_mem name hv)
    · intro v hv hnv
      by_cases hvn : v = name
      · exact Or.inl hvn
      · have hvnv : v ∉ name :: V := by
          intro h1
          rcases List.mem_cons.mp h1 with h2 | h2
          · exact hvn h2
          · exact hnv h2
        rcases lo.newSound v hv hvnv with ⟨d, hd, hp⟩
        rcases hp with rfl | hp
        · exact Or.inr (Relation.TransGen.single (hedge v hd))
        · exact Or.inr (Relation.TransGen.head (hedge d hd) hp)
    · intro v hv hvS hvn
      refine lo.finPush v hv ?_
      intro h1
      rcases List.mem_cons.mp h1 with h2 | h2
      · exact hvn h2
      · exact hvS h2
    · intro v hv hvS x hx
      by_cases hvn : v = name
      · subst hvn
        have hxd : x ∈ e.deps := (depEdge_iff_of_lookup hm x).mp hx
        refine ⟨List.mem_append_right G (lo.depsIn x hxd), ?_⟩
        intro hxS
        have h1 : ReachTG reg x x :=
          Relation.TransGen.tail (hin.stackReach x hxS) hx
        exact not_reachTG_self hr x h1
      · have hvns : v ∉ name :: S := by
          intro h1
          rcases List.mem_cons.mp h1 with h2 | h2
          · exact hvn h2
          · exact hvS h2
        have h1 := lo.finDeps v hv hvns x hx
        exact ⟨h1.1, fun hxS => h1.2 (List.mem_cons_of_mem name hxS)⟩
    · intro v hv hvS x hx hsome
      by_cases hvn : v = name
      · subst hvn
        exact lo.depsVis x ((depEdge_iff_of_lookup hm x).mp hx) hsome
      · refine lo.visClosed v hv ?_ x hx hsome
        intro h1
        rcases List.mem_cons.mp h1 with h2 | h2
        · exact hvn h2
        · exact hvS h2
    · intro x hx
      rcases lo.memSound x hx with h1 | h1 | h1
      · exact absurd h1 (List.not_mem_nil x)
      · exact ⟨name, hnamevis, hin.notVis, hedge x h1⟩
      · rcases h1 with ⟨b, hb, hbnV, he⟩
        exact ⟨b, hb, fun hbV => hbnV (List.mem_cons_of_mem name hbV), he⟩
    · intro b hb hbV x hx
      by_cases hbn : b = name
      · subst hbn
        exact lo.depsIn x ((depEdge_iff_of_lookup hm x).mp hx)
      · refine lo.memComplete b hb ?_ x hx
        intro h1
        rcases List.mem_cons.mp h1 with h2 | h2
        · exact hbn h2
        · exact hbV h2

end ModuleLoader

namespace ModuleLoader

/-- Claim C3 (amended): for every registered module name n of a registry
certified acyclic by a rank function, the list returned by
resolveDependencies(n) contains exactly the transitive dependencies of n
(every name reachable from n through stored dependency edges, including
unregistered dependency names), and it is ordered dependencies-before-
dependents: before every occurrence of a listed name, every transitive
dependency of that name has already occurred.  The list is however not
always duplicate-free (see the counterexample). -/
theorem C3_resolve_closure_ordered {α : Type} (reg : Registry α)
    (rank : String → Nat) (n : String) (hr : RankOk reg rank)
    (hreg : (List.lookup n reg.modules).isSome) :
    (∀ x, x ∈ (resolveDependencies reg n).1 ↔ ReachTG reg n x)
    ∧ (∀ l1 b l2, (resolveDependencies reg n).1 = l1 ++ b :: l2 →
        ∀ x, ReachTG reg b x → x ∈ l1) := by
  simp only [resolveDependencies]
  have hin : OneIn reg [] [] [] n :=
    ⟨List.not_mem_nil n,
     fun s hs => absurd hs (List.not_mem_nil s),
     fun s hs => absurd hs (List.not_mem_nil s),
     fun v hv => absurd hv (List.not_mem_nil v),
     fun v hv => absurd hv (List.not_mem_nil v),
     fun v hv => absurd hv (List.not_mem_nil v),
     ordAll_nil reg⟩
  have oo := oneClaim reg rank hr (unvisited reg []) n [] [] [] le_rfl hin
  have hords : OrdAll reg (resolveOne reg n []).1 := by
    have h0 := oo.ordG
    rwa [List.nil_append] at h0
  have hns : n ∈ (resolveOne reg n []).2.1 := by
    rcases oo.self with ⟨hnone, _, _⟩ | h2
    · rw [hnone] at hreg
      cases hreg
    · exact h2
  have key : ∀ y, ReachTG reg n y → y ∈ (resolveOne reg n []).1 ∧
      ((List.lookup y reg.modules).isSome → y ∈ (resolveOne reg n []).2.1) := by
    intro y hy
    have hy' : Relation.TransGen (DepEdge reg) n y := hy
    clear hy
    induction hy' with
    | single he =>
      exact ⟨oo.memComplete n hns (List.not_mem_nil n) _ he,
        fun hsome => oo.visClosed n hns (List.not_mem_nil n) _ he hsome⟩
    | tail _ he ih =>
      have hbreg := depEdge_lookup_isSome he
      have hbvis := ih.2 hbreg
      exact ⟨oo.memComplete _ hbvis (List.not_mem_nil _) _ he,
        fun hsome => oo.visClosed _ hbvis (List.not_mem_nil _) _ he hsome⟩
  refine ⟨?_, ?_⟩
  · intro x
    constructor
    · intro hx
      rcases oo.memSound x hx with ⟨b, hb, _, he⟩
      rcases oo.newSound b hb (List.not_mem_nil b) with rfl | hp
      · exact Relation.TransGen.single he
      · exact Relation.TransGen.tail hp he
    · intro hx
      exact (key x hx).1
  · intro l1 b l2 heq x hx
    exact ordAll_reach hr hords l1 b l2 heq x hx

/-- Claim C3, counterexample: in the diamond registry (A depends on B and C,
which both depend on D), resolveDependencies('A') returns [D, B, D, C]: the
shared dependency D is listed twice, so the returned list is not the
duplicate-free ("deduplicated") list the specification describes. -/
theorem C3_counterexample :
    (resolveDependencies regDiamond "A").1 = ["D", "B", "D", "C"]
    ∧ ¬ (resolveDependencies regDiamond "A").1.Nodup := by
  have h : (resolveDependencies regDiamond "A").1 = ["D", "B", "D", "C"] := by
    simp [resolveDependencies, resolveOne, resolveList, regDiamond, register,
      emptyRegistry, setA, visUnion, List.lookup, isBlank]
  refine ⟨h, ?_⟩
  rw [h]
  decide

/-- Witness for C3: the diamond registry is acyclic under the concrete rank
A=3, B=2, C=1, D=0, module A is registered, and the amended claim holds for
resolveDependencies('A') there. -/
theorem C3_witness :
    (RankOk regDiamond rankDiamond
      ∧ (List.lookup "A" regDiamond.modules).isSome)
    ∧ ((∀ x, x ∈ (resolveDependencies regDiamond "A").1 ↔ ReachTG regDiamond "A" x)
       ∧ (∀ l1 b l2, (resolveDependencies regDiamond "A").1 = l1 ++ b :: l2 →
           ∀ x, ReachTG regDiamond b x → x ∈ l1)) :=
  ⟨⟨by unfold RankOk; decide, by decide⟩,
   C3_resolve_closure_ordered regDiamond rankDiamond "A"
     (by unfold RankOk; decide) (by decide)⟩

end ModuleLoader
